import Mathlib

/-!
Verification of the way-graph route engine of `prg2/datastructures.{hh,cc}`.

The development shallowly embeds the phase-2 ("way") portion of the
`Datastructures` class: the Way Index (`ways_by_id_`, `ways_by_coord_`),
the Crossroad State Table (`visited_coordinates_`), the mutators
(`add_way`, `remove_way`, `clear_ways`) and the route search engine
(`clean_for_search`, `search_any`, `search_cycle`, `route_any`,
`route_with_cycle`).

Modelling decisions, each noted at the definition it concerns:
* C++ `int` values are modelled as unbounded `Int`; the sentinel
  `NO_VALUE = std::numeric_limits<int>::min()` keeps its concrete value
  `-2147483648`.
* The unordered containers are modelled as association lists kept in
  insertion order; the C++ iteration order of an `unordered_multimap` is
  unspecified, insertion order is one admissible order (and the one the
  specification recommends fixing).
* The two recursive search procedures are embedded with an explicit
  fuel parameter; exhausting the fuel is reported as an explicit error,
  distinct from a failed `at` lookup, so that both recursion depth and
  lookup totality can be reasoned about.
-/

/-- C++ `NO_VALUE = std::numeric_limits<int>::min()`. -/
def NO_VALUE : Int := -2147483648

/-- C++ `WayID` (`std::string`). -/
abbrev WayID := String

/-- C++ `NO_WAY = "!!No way!!"`. -/
def NO_WAY : WayID := "!!No way!!"

/-- C++ `Distance` (`int`). -/
abbrev Distance := Int

/-- C++ `NO_DISTANCE = NO_VALUE`. -/
def NO_DISTANCE : Distance := NO_VALUE

/-- C++ `struct Coord { int x; int y; }`. -/
structure Coord where
  x : Int
  y : Int
deriving DecidableEq, Repr

/-- C++ `NO_COORD = {NO_VALUE, NO_VALUE}`. -/
def NO_COORD : Coord := ⟨NO_VALUE, NO_VALUE⟩

/-- Largest `j ≤ k` with `j * j ≤ n` (0 when none), by downward scan:
a structurally recursive integer square root once `k` starts at `n`. -/
def isqrtGo (n : Nat) : Nat → Nat
  | 0 => 0
  | k + 1 => if (k + 1) * (k + 1) ≤ n then k + 1 else isqrtGo n k

/-- The floor of the real square root of `n` (shown equal to `Nat.sqrt`
and to `⌊Real.sqrt n⌋` below). -/
def isqrt (n : Nat) : Nat := isqrtGo n n

/-- Length of one polyline segment, from the `Way` constructor:
`std::floor(std::sqrt(pow(dx,2) + pow(dy,2)))` assigned to `int`: the
floor of the real square root of the squared Euclidean distance. -/
def segLen (c1 c2 : Coord) : Int :=
  Int.ofNat (isqrt (((c1.x - c2.x) * (c1.x - c2.x) + (c1.y - c2.y) * (c1.y - c2.y)).toNat))

/-- The summation loop of the `Way` constructor: the lengths of the
segments between consecutive coordinates, accumulated left to right. -/
def calcLength : List Coord → Int
  | [] => 0
  | [_] => 0
  | c1 :: c2 :: rest => segLen c1 c2 + calcLength (c2 :: rest)

/-- C++ `struct Way`: id, full polyline, the two endpoints (first and
last polyline coordinate) and the precomputed integer length. -/
structure Way where
  id : WayID
  coordinates : List Coord
  end1 : Coord
  end2 : Coord
  length : Int
deriving DecidableEq, Repr

/-- The `Way` constructor: `end1 = *coordinates.begin()`,
`end2 = *coordinates.rbegin()`, `length` folded over consecutive pairs.
(`headD`/`getLastD` with the `NO_COORD` default stand in for the C++
undefined behaviour on an empty vector, which no caller exercises.) -/
def mkWay (id : WayID) (coords : List Coord) : Way :=
  { id := id
    coordinates := coords
    end1 := coords.headD NO_COORD
    end2 := coords.getLastD NO_COORD
    length := calcLength coords }

/-- C++ `struct Crossroad_data`: per-coordinate mutable search state. The
header names the distance field `minimum_distance`; the implementation
file uses it as `distance`. -/
structure Crossroad where
  coordinates : Coord
  visited : Bool
  distance : Int
deriving DecidableEq, Repr

/-- The phase-2 state of the `Datastructures` class: both Way Index
views, the Crossroad State Table, the two result buffers and the
`route_found_` flag. -/
structure DS where
  waysById : List (WayID × Way)
  waysByCoord : List (Coord × Way)
  visitedCoordinates : List (Coord × Crossroad)
  chosenRoute : List (Coord × WayID × Distance)
  cyclicRoute : List (Coord × WayID)
  routeFound : Bool
deriving DecidableEq, Repr

/-- The freshly constructed `Datastructures` object (`route_found_` is
uninitialised in C++ and is never read before `clean_for_search` sets
it; `false` is chosen as its model value). -/
def initDS : DS :=
  { waysById := [], waysByCoord := [], visitedCoordinates := [],
    chosenRoute := [], cyclicRoute := [], routeFound := false }

/-- `ways_by_id_.find(id)` / `get_way(id)`. -/
def lookupWayById (s : DS) (id : WayID) : Option Way :=
  (s.waysById.find? (fun p => p.1 = id)).map Prod.snd

/-- `visited_coordinates_.find(c)` and the checked part of
`visited_coordinates_.at(c)`. -/
def lookupCd (s : DS) (c : Coord) : Option Crossroad :=
  (s.visitedCoordinates.find? (fun p => p.1 = c)).map Prod.snd

/-- `visited_coordinates_.at(c)->distance = d` (the entry is known to
exist whenever the code performs this write). -/
def setCdDistance (s : DS) (c : Coord) (d : Int) : DS :=
  { s with visitedCoordinates :=
      s.visitedCoordinates.map (fun p => if p.1 = c then (p.1, { p.2 with distance := d }) else p) }

/-- `visited_coordinates_.at(c)->visited = b`. -/
def setCdVisited (s : DS) (c : Coord) (b : Bool) : DS :=
  { s with visitedCoordinates :=
      s.visitedCoordinates.map (fun p => if p.1 = c then (p.1, { p.2 with visited := b }) else p) }

/-- `visited_coordinates_.insert({c, make_shared<Crossroad_data>(c)})`. -/
def insertCd (s : DS) (c : Coord) : DS :=
  { s with visitedCoordinates :=
      s.visitedCoordinates ++ [(c, { coordinates := c, visited := false, distance := NO_DISTANCE })] }

/-- `visited_coordinates_.erase(c)` (keys are unique, so erasing by key
removes the one entry with that key). -/
def eraseCd (s : DS) (c : Coord) : DS :=
  { s with visitedCoordinates := s.visitedCoordinates.filter (fun p => ¬ p.1 = c) }

/-- `ways_by_coord_.equal_range(xy)`: all incidences stored under the
key `xy`, in insertion order. -/
def equalRangeCoord (s : DS) (xy : Coord) : List (Coord × Way) :=
  s.waysByCoord.filter (fun p => p.1 = xy)

/-- `Datastructures::ways_from`: for every incidence at `xy`, the pair
(way id, the other endpoint); a self-loop is reported once per stored
incidence, i.e. twice. -/
def waysFrom (s : DS) (xy : Coord) : List (WayID × Coord) :=
  (equalRangeCoord s xy).map
    (fun p => if xy = p.2.end1 then (p.2.id, p.2.end2) else (p.2.id, p.2.end1))

/-- `Datastructures::get_way_coords`. -/
def getWayCoords (s : DS) (id : WayID) : List Coord :=
  match lookupWayById s id with
  | none => [NO_COORD]
  | some w => w.coordinates

/-- `Datastructures::all_ways`. -/
def allWays (s : DS) : List WayID :=
  s.waysById.map Prod.fst

/-- The guarded insertion of `add_way`: create a crossroad entry only
when none exists yet for the coordinate. -/
def ensureCd (s : DS) (c : Coord) : DS :=
  if (lookupCd s c).isSome then s else insertCd s c

/-- `Datastructures::add_way`: fails (without mutation) when the id is
already present; otherwise inserts the way into both views and creates
crossroad-state entries for both endpoints unless they already exist. -/
def addWay (s : DS) (id : WayID) (coords : List Coord) : Bool × DS :=
  match lookupWayById s id with
  | some _ => (false, s)
  | none =>
    let w := mkWay id coords
    let end1 := coords.headD NO_COORD
    let end2 := coords.getLastD NO_COORD
    let s1 : DS :=
      { s with waysById := s.waysById ++ [(id, w)],
               waysByCoord := s.waysByCoord ++ [(end1, w), (end2, w)] }
    (true, ensureCd (ensureCd s1 end1) end2)

/-- Erase the first incidence under key `c` whose way has the given id,
as the `equal_range`/`erase` loop of `remove_way` does. -/
def eraseIncidence (l : List (Coord × Way)) (c : Coord) (id : WayID) : List (Coord × Way) :=
  l.eraseP (fun p => decide (p.1 = c) && decide (p.2.id = id))

/-- One endpoint's removal step of `remove_way`: erase one incidence
under the endpoint from the coordinate view, then erase the endpoint's
crossroad entry if `ways_from` reports no remaining incident way. -/
def removeStage (s : DS) (c : Coord) (id : WayID) : DS :=
  if (waysFrom { s with waysByCoord := eraseIncidence s.waysByCoord c id } c).length = 0 then
    eraseCd { s with waysByCoord := eraseIncidence s.waysByCoord c id } c
  else
    { s with waysByCoord := eraseIncidence s.waysByCoord c id }

/-- `Datastructures::remove_way`: fails when the id is absent; otherwise
performs the removal step for `end1`, then for `end2` (in code order),
and finally removes the way from the id view. -/
def removeWay (s : DS) (id : WayID) : Bool × DS :=
  match lookupWayById s id with
  | none => (false, s)
  | some w =>
    let sD := removeStage (removeStage s w.end1 id) w.end2 id
    (true, { sD with waysById := sD.waysById.filter (fun p => ¬ p.1 = id) })

/-- `Datastructures::clear_ways`. -/
def clearWays (s : DS) : DS :=
  { s with waysById := [], waysByCoord := [], visitedCoordinates := [],
           chosenRoute := [], cyclicRoute := [] }

/-- The undeclared `NORMAL` / `CYCLE` constants of `clean_for_search`. -/
inductive SearchMode where
  | NORMAL
  | CYCLE
deriving DecidableEq, Repr

/-- `Datastructures::clean_for_search`: clear the found flag, reset
every crossroad entry to unvisited with undefined distance, and clear
the result buffer of the requested mode. -/
def cleanForSearch (s : DS) (mode : SearchMode) : DS :=
  let s' : DS :=
    { s with routeFound := false,
             visitedCoordinates :=
               s.visitedCoordinates.map
                 (fun p => (p.1, { p.2 with distance := NO_VALUE, visited := false })) }
  match mode with
  | .NORMAL => { s' with chosenRoute := [] }
  | .CYCLE => { s' with cyclicRoute := [] }

/-- Failure modes of the embedded searches: a failed `at` lookup
(`std::out_of_range` in C++), or exhaustion of the recursion fuel. -/
inductive SearchErr where
  | atFail
  | outOfFuel
deriving DecidableEq, Repr

/-- The neighbour loop of `search_any`, parametric in the recursive
call `rec` (instantiated with `search_any` at the next smaller fuel):
skip visited neighbours; otherwise recurse with the accumulated length
increased by the connecting way's length; on the first recursive call
that sets the found flag, push `(current, way used, distance recorded
at current)` and stop. -/
def searchAnyLoop (rec : Coord → Int → DS → Except SearchErr DS)
    (current : Coord) (len : Int) :
    List (WayID × Coord) → DS → Except SearchErr DS
  | [], s => .ok s
  | (wid, other) :: rest, s =>
    match lookupCd s other with
    | none => .error .atFail
    | some cdO =>
      if cdO.visited then
        searchAnyLoop rec current len rest s
      else
        match lookupWayById s wid with
        | none => .error .atFail
        | some w =>
          match rec other (len + w.length) s with
          | .error e => .error e
          | .ok s' =>
            if s'.routeFound then
              match lookupCd s' current with
              | none => .error .atFail
              | some cdC =>
                .ok { s' with chosenRoute := s'.chosenRoute ++ [(current, wid, cdC.distance)] }
            else
              searchAnyLoop rec current len rest s'

/-- `Datastructures::search_any`, with explicit fuel bounding the
recursion depth: record the accumulated distance at `current` and mark
it visited; if `current` is the goal, set the found flag and push the
terminator `(goal, NO_WAY, distance)`; otherwise run the neighbour
loop over `ways_from(current)`. -/
def searchAny : Nat → Coord → Coord → Int → DS → Except SearchErr DS
  | 0, _, _, _, _ => .error .outOfFuel
  | fuel + 1, current, goal, len, s =>
    match lookupCd s current with
    | none => .error .atFail
    | some _ =>
      let s1 := setCdDistance s current len
      let s2 := setCdVisited s1 current true
      if current = goal then
        match lookupCd s2 current with
        | none => .error .atFail
        | some cd =>
          .ok { s2 with routeFound := true,
                        chosenRoute := s2.chosenRoute ++ [(goal, NO_WAY, cd.distance)] }
      else
        searchAnyLoop (fun c l st => searchAny fuel c goal l st)
          current len (waysFrom s2 current) s2

/-- The neighbour loop of `search_cycle`: skip the edge leading
straight back to the previous coordinate; on the first recursive call
that sets the found flag, push `(current, way used)` and stop. -/
def searchCycleLoop (rec : Coord → Coord → DS → Except SearchErr DS)
    (current previous : Coord) :
    List (WayID × Coord) → DS → Except SearchErr DS
  | [], s => .ok s
  | (wid, other) :: rest, s =>
    if other = previous then
      searchCycleLoop rec current previous rest s
    else
      match rec other current s with
      | .error e => .error e
      | .ok s' =>
        if s'.routeFound then
          .ok { s' with cyclicRoute := s'.cyclicRoute ++ [(current, wid)] }
        else
          searchCycleLoop rec current previous rest s'

/-- `Datastructures::search_cycle`, with explicit fuel: a visited
current coordinate means a cycle was found (push `(current, NO_WAY)`
and stop); otherwise mark it visited and run the neighbour loop. -/
def searchCycle : Nat → Coord → Coord → DS → Except SearchErr DS
  | 0, _, _, _ => .error .outOfFuel
  | fuel + 1, current, previous, s =>
    match lookupCd s current with
    | none => .error .atFail
    | some cd =>
      if cd.visited then
        .ok { s with routeFound := true,
                     cyclicRoute := s.cyclicRoute ++ [(current, NO_WAY)] }
      else
        let s1 := setCdVisited s current true
        searchCycleLoop (fun c p st => searchCycle fuel c p st)
          current previous (waysFrom s1 current) s1

/-- `Datastructures::route_any` with a parametric recursion-depth
budget for `search_any`: precondition check on both endpoints
(sentinel result without searching), reset, search from `fromxy` with
distance 0, and reverse the buffer into start-to-goal order. -/
def routeAnyAux (fuel : Nat) (s : DS) (fromxy toxy : Coord) :
    Except SearchErr (List (Coord × WayID × Distance) × DS) :=
  if (waysFrom s toxy).length = 0 ∨ (waysFrom s fromxy).length = 0 then
    .ok ([(NO_COORD, NO_WAY, NO_DISTANCE)], s)
  else
    match searchAny fuel fromxy toxy 0 (cleanForSearch s .NORMAL) with
    | .error e => .error e
    | .ok s2 =>
      .ok (s2.chosenRoute.reverse, { s2 with chosenRoute := s2.chosenRoute.reverse })

/-- `Datastructures::route_any`; the fuel `|table| + 1` is enough for
any state of the table, as proved below. -/
def routeAny (s : DS) (fromxy toxy : Coord) :
    Except SearchErr (List (Coord × WayID × Distance) × DS) :=
  routeAnyAux (s.visitedCoordinates.length + 1) s fromxy toxy

/-- `Datastructures::route_with_cycle` with a parametric
recursion-depth budget for `search_cycle`. -/
def routeWithCycleAux (fuel : Nat) (s : DS) (fromxy : Coord) :
    Except SearchErr (List (Coord × WayID) × DS) :=
  if (waysFrom s fromxy).length = 0 then
    .ok ([(NO_COORD, NO_WAY)], s)
  else
    match searchCycle fuel fromxy NO_COORD (cleanForSearch s .CYCLE) with
    | .error e => .error e
    | .ok s2 =>
      .ok (s2.cyclicRoute.reverse, { s2 with cyclicRoute := s2.cyclicRoute.reverse })

/-- `Datastructures::route_with_cycle`. -/
def routeWithCycle (s : DS) (fromxy : Coord) :
    Except SearchErr (List (Coord × WayID) × DS) :=
  routeWithCycleAux (s.visitedCoordinates.length + 1) s fromxy

/-! ### Association-list lemmas for the crossroad table and the way views -/

/-- The keys of the crossroad state table. -/
def cdKeys (s : DS) : List Coord :=
  s.visitedCoordinates.map Prod.fst

/-- Number of table entries still unvisited: the budget the searches
consume. -/
def uvCount (s : DS) : Nat :=
  s.visitedCoordinates.countP (fun p => !p.2.visited)

theorem lookupCd_mem {s : DS} {c : Coord} {cd : Crossroad}
    (h : lookupCd s c = some cd) : (c, cd) ∈ s.visitedCoordinates := by
  unfold lookupCd at h
  cases hf : s.visitedCoordinates.find? (fun p => p.1 = c) with
  | none => rw [hf] at h; simp at h
  | some p =>
    rw [hf] at h
    have hp := List.find?_some hf
    have hm := List.mem_of_find?_eq_some hf
    simp at h hp
    rcases p with ⟨pc, pcd⟩
    simp_all

theorem lookupCd_isSome_of_mem {s : DS} {c : Coord} {cd : Crossroad}
    (h : (c, cd) ∈ s.visitedCoordinates) : ∃ cd', lookupCd s c = some cd' := by
  unfold lookupCd
  have : (s.visitedCoordinates.find? (fun p => p.1 = c)).isSome := by
    rw [List.find?_isSome]
    exact ⟨(c, cd), h, by simp⟩
  cases hf : s.visitedCoordinates.find? (fun p => p.1 = c) with
  | none => rw [hf] at this; simp at this
  | some p => exact ⟨p.2, by simp [hf]⟩

theorem lookupCd_mem_keys {s : DS} {c : Coord}
    (h : c ∈ cdKeys s) : ∃ cd, lookupCd s c = some cd := by
  unfold cdKeys at h
  rcases List.mem_map.1 h with ⟨⟨c', cd⟩, hm, hc⟩
  cases hc
  exact lookupCd_isSome_of_mem hm

theorem lookupCd_keys_of_some {s : DS} {c : Coord} {cd : Crossroad}
    (h : lookupCd s c = some cd) : c ∈ cdKeys s :=
  List.mem_map.2 ⟨(c, cd), lookupCd_mem h, rfl⟩

/-- With nodup keys, two entries with the same key are the same entry. -/
theorem key_inj {α β : Type} {l : List (α × β)} (hnd : (l.map Prod.fst).Nodup)
    {p q : α × β} (hp : p ∈ l) (hq : q ∈ l) (hk : p.1 = q.1) : p = q := by
  induction l with
  | nil => cases hp
  | cons a t ih =>
    simp only [List.map_cons, List.nodup_cons] at hnd
    rcases List.mem_cons.1 hp with rfl | hp' <;> rcases List.mem_cons.1 hq with rfl | hq'
    · rfl
    · exact absurd (hk ▸ List.mem_map.2 ⟨q, hq', rfl⟩) hnd.1
    · exact absurd (hk ▸ List.mem_map.2 ⟨p, hp', rfl⟩) hnd.1
    · exact ih hnd.2 hp' hq'

/-- `find?` with a key predicate commutes with a key-preserving map. -/
theorem find?_key_map {f : (Coord × Crossroad) → (Coord × Crossroad)}
    (hk : ∀ p, (f p).1 = p.1) (t : List (Coord × Crossroad)) (c : Coord) :
    (t.map f).find? (fun p => p.1 = c) = (t.find? (fun p => p.1 = c)).map f := by
  induction t with
  | nil => rfl
  | cons p rest ih =>
    by_cases hp : p.1 = c
    · simp [List.find?_cons, hk, hp]
    · simp [List.find?_cons, hk, hp, ih]

theorem lookupCd_setCdDistance_self {s : DS} {c : Coord} {cd : Crossroad} {d : Int}
    (h : lookupCd s c = some cd) :
    lookupCd (setCdDistance s c d) c = some { cd with distance := d } := by
  unfold lookupCd setCdDistance at *
  rw [find?_key_map (by intro p; by_cases hp : p.1 = c <;> simp [hp])]
  cases hf : s.visitedCoordinates.find? (fun p => p.1 = c) with
  | none => rw [hf] at h; simp at h
  | some p =>
    rw [hf] at h
    have hp := List.find?_some hf
    simp at h hp
    simp [hp, h]

theorem lookupCd_setCdDistance_ne {s : DS} {c c' : Coord} {d : Int}
    (h : c' ≠ c) : lookupCd (setCdDistance s c d) c' = lookupCd s c' := by
  unfold lookupCd setCdDistance
  rw [find?_key_map (by intro p; by_cases hp : p.1 = c <;> simp [hp])]
  cases hf : s.visitedCoordinates.find? (fun p => p.1 = c') with
  | none => simp
  | some p =>
    have hp := List.find?_some hf
    simp at hp
    simp [hp, h]

theorem lookupCd_setCdVisited_self {s : DS} {c : Coord} {cd : Crossroad} {b : Bool}
    (h : lookupCd s c = some cd) :
    lookupCd (setCdVisited s c b) c = some { cd with visited := b } := by
  unfold lookupCd setCdVisited at *
  rw [find?_key_map (by intro p; by_cases hp : p.1 = c <;> simp [hp])]
  cases hf : s.visitedCoordinates.find? (fun p => p.1 = c) with
  | none => rw [hf] at h; simp at h
  | some p =>
    rw [hf] at h
    have hp := List.find?_some hf
    simp at h hp
    simp [hp, h]

theorem lookupCd_setCdVisited_ne {s : DS} {c c' : Coord} {b : Bool}
    (h : c' ≠ c) : lookupCd (setCdVisited s c b) c' = lookupCd s c' := by
  unfold lookupCd setCdVisited
  rw [find?_key_map (by intro p; by_cases hp : p.1 = c <;> simp [hp])]
  cases hf : s.visitedCoordinates.find? (fun p => p.1 = c') with
  | none => simp
  | some p =>
    have hp := List.find?_some hf
    simp at hp
    simp [hp, h]

theorem cdKeys_setCdDistance (s : DS) (c : Coord) (d : Int) :
    cdKeys (setCdDistance s c d) = cdKeys s := by
  unfold cdKeys setCdDistance
  rw [List.map_map]
  apply List.map_congr_left
  intro p _
  by_cases hp : p.1 = c <;> simp [hp]

theorem cdKeys_setCdVisited (s : DS) (c : Coord) (b : Bool) :
    cdKeys (setCdVisited s c b) = cdKeys s := by
  unfold cdKeys setCdVisited
  rw [List.map_map]
  apply List.map_congr_left
  intro p _
  by_cases hp : p.1 = c <;> simp [hp]

/-! ### The evolution relation produced by a search

A search only rewrites the mutable fields of table entries that are
still unvisited at the moment of the write; entries already visited are
frozen, keys never change. -/

/-- Pointwise evolution of the crossroad table during one search. -/
def Evolves (t t' : List (Coord × Crossroad)) : Prop :=
  List.Forall₂ (fun p q => q.1 = p.1 ∧ (p.2.visited = true → q.2 = p.2)) t t'

theorem Evolves.refl_ev (t : List (Coord × Crossroad)) : Evolves t t :=
  List.forall₂_same.2 (fun _ _ => ⟨rfl, fun _ => rfl⟩)

theorem Evolves.trans_ev {t₁ t₂ t₃ : List (Coord × Crossroad)}
    (h₁ : Evolves t₁ t₂) (h₂ : Evolves t₂ t₃) : Evolves t₁ t₃ := by
  induction h₁ generalizing t₃ with
  | nil => cases h₂; exact List.Forall₂.nil
  | cons hpq _ ih =>
    cases h₂ with
    | cons hqr hrest =>
      refine List.Forall₂.cons ⟨hqr.1.trans hpq.1, fun hv => ?_⟩ (ih hrest)
      rw [hqr.2 (by rw [hpq.2 hv]; exact hv), hpq.2 hv]

theorem Evolves.keys {t t' : List (Coord × Crossroad)} (h : Evolves t t') :
    t'.map Prod.fst = t.map Prod.fst := by
  induction h with
  | nil => rfl
  | cons hpq _ ih => simp [hpq.1, ih]

theorem Evolves.find?_congr {t t' : List (Coord × Crossroad)} (h : Evolves t t') (c : Coord) :
    ∀ {p}, t.find? (fun p => p.1 = c) = some p → p.2.visited = true →
      t'.find? (fun p => p.1 = c) = some p := by
  induction h with
  | nil => intro p hp; simp at hp
  | cons hpq hrest ih =>
    intro p hp hv
    rename_i a b l₁ l₂
    by_cases ha : a.1 = c
    · rw [List.find?_cons_of_pos _ (by simpa using ha)] at hp
      cases hp
      rw [List.find?_cons_of_pos _ (by simpa [hpq.1] using ha)]
      have := hpq.2 hv
      rw [show b = a from Prod.ext hpq.1 this]
    · rw [List.find?_cons_of_neg _ (by simpa using ha)] at hp
      rw [List.find?_cons_of_neg _ (by simpa [hpq.1] using ha)]
      exact ih hp hv

/-- A visited entry survives a search unchanged. -/
theorem Evolves.lookup_frozen {s s' : DS}
    (h : Evolves s.visitedCoordinates s'.visitedCoordinates)
    {c : Coord} {cd : Crossroad} (hl : lookupCd s c = some cd) (hv : cd.visited = true) :
    lookupCd s' c = some cd := by
  unfold lookupCd at *
  cases hf : s.visitedCoordinates.find? (fun p => p.1 = c) with
  | none => rw [hf] at hl; simp at hl
  | some p =>
    rw [hf] at hl
    simp at hl
    subst hl
    rw [h.find?_congr c hf hv]
    rfl

theorem Evolves.cdKeys_eq {s s' : DS}
    (h : Evolves s.visitedCoordinates s'.visitedCoordinates) : cdKeys s' = cdKeys s :=
  h.keys

theorem Evolves.uvCount_le {s s' : DS}
    (h : Evolves s.visitedCoordinates s'.visitedCoordinates) : uvCount s' ≤ uvCount s := by
  unfold uvCount
  generalize hT : s.visitedCoordinates = t at h
  generalize hT' : s'.visitedCoordinates = t' at h
  clear hT hT'
  induction h with
  | nil => exact Nat.le.refl
  | cons hpq hrest ih =>
    rename_i a b l₁ l₂
    simp only [List.countP_cons]
    by_cases hv : a.2.visited
    · have : b.2 = a.2 := hpq.2 hv
      simp [this, hv]
      omega
    · have hb : (!a.2.visited) = true := by simp [hv]
      by_cases hv' : b.2.visited <;> simp [hv, hv'] <;> omega

theorem evolves_map_of_pointwise {t : List (Coord × Crossroad)}
    {f : (Coord × Crossroad) → (Coord × Crossroad)}
    (h : ∀ p ∈ t, (f p).1 = p.1 ∧ (p.2.visited = true → (f p).2 = p.2)) :
    Evolves t (t.map f) := by
  induction t with
  | nil => exact List.Forall₂.nil
  | cons p rest ih =>
    exact List.Forall₂.cons (h p (List.mem_cons_self p rest))
      (ih (fun q hq => h q (List.mem_cons_of_mem p hq)))

/-- Marking an entry visited never breaks `Evolves`: a visited entry is
rewritten to itself. -/
theorem evolves_setCdVisited_true (s : DS) (c : Coord) :
    Evolves s.visitedCoordinates (setCdVisited s c true).visitedCoordinates := by
  apply evolves_map_of_pointwise
  intro p _
  by_cases hp : p.1 = c
  · refine ⟨by simp [hp], fun hv => ?_⟩
    simp [hp]
    cases hcd : p.2
    simp_all
  · simp [hp]

/-- Setting the distance of an unvisited entry: needs nodup keys so that
no hidden visited entry shares the key. -/
theorem evolves_setCdDistance {s : DS} {c : Coord} {cd : Crossroad} {d : Int}
    (hnd : (s.visitedCoordinates.map Prod.fst).Nodup)
    (hl : lookupCd s c = some cd) (hv : cd.visited = false) :
    Evolves s.visitedCoordinates (setCdDistance s c d).visitedCoordinates := by
  apply evolves_map_of_pointwise
  intro p hp
  by_cases hpc : p.1 = c
  · refine ⟨by simp [hpc], fun hvis => ?_⟩
    have hmem := lookupCd_mem hl
    have := key_inj hnd hp hmem (by simpa using hpc)
    rw [this] at hvis
    simp at hvis
    rw [hvis] at hv
    cases hv
  · simp [hpc]

theorem countP_map_le {t : List (Coord × Crossroad)}
    {f : (Coord × Crossroad) → (Coord × Crossroad)}
    (h : ∀ p ∈ t, (f p).2.visited = false → p.2.visited = false) :
    (t.map f).countP (fun p => !p.2.visited) ≤ t.countP (fun p => !p.2.visited) := by
  rw [List.countP_map]
  induction t with
  | nil => exact Nat.le.refl
  | cons p rest ih =>
    have hrest := ih (fun q hq => h q (List.mem_cons_of_mem p hq))
    simp only [List.countP_cons]
    by_cases hfp : (f p).2.visited
    · have h1 : ((fun p => !p.2.visited) ∘ f) p = false := by simp [hfp]
      by_cases hp : p.2.visited <;> simp only [h1, hp, Bool.not_true, Bool.not_false] <;>
        simp <;> omega
    · have := h p (List.mem_cons_self p rest) (by simpa using hfp)
      have h1 : ((fun p => !p.2.visited) ∘ f) p = true := by simp [hfp]
      simp only [h1, this, Bool.not_false, if_pos, if_true]
      omega

/-- Marking the (unvisited) entry at `c` strictly decreases the number
of unvisited entries. -/
theorem uvCount_setCdVisited_lt {s : DS} {c : Coord} {cd : Crossroad}
    (hl : lookupCd s c = some cd) (hv : cd.visited = false) :
    uvCount (setCdVisited s c true) < uvCount s := by
  unfold uvCount setCdVisited lookupCd at *
  simp only
  rw [List.countP_map]
  generalize hT : s.visitedCoordinates = t at *
  clear hT
  induction t with
  | nil => simp at hl
  | cons p rest ih =>
    by_cases hpc : p.1 = c
    · rw [List.find?_cons_of_pos _ (by simpa using hpc)] at hl
      simp at hl
      subst hl
      simp only [List.countP_cons]
      have hle : rest.countP
            ((fun p => !p.2.visited) ∘ fun p =>
              if p.1 = c then (p.1, { p.2 with visited := true }) else p) ≤
          rest.countP (fun p => !p.2.visited) := by
        rw [show rest.countP
              ((fun p => !p.2.visited) ∘ fun p =>
                if p.1 = c then (p.1, { p.2 with visited := true }) else p) =
            (rest.map fun p =>
              if p.1 = c then (p.1, { p.2 with visited := true }) else p).countP
              (fun p => !p.2.visited) from (List.countP_map _ _ _).symm]
        apply countP_map_le
        intro q _ hq
        by_cases hqc : q.1 = c
        · simp [hqc] at hq
        · simpa [hqc] using hq
      have h1 : ((fun p => !p.2.visited) ∘ fun p =>
          if p.1 = c then (p.1, { p.2 with visited := true }) else p) p = false := by
        simp [hpc]
      have h2 : (!p.2.visited) = true := by simp [hv]
      simp only [h1, h2, if_false, if_true, Bool.false_eq_true, if_neg]
      simp only [] at hle ⊢
      omega
    · rw [List.find?_cons_of_neg _ (by simpa using hpc)] at hl
      have := ih hl
      have h1 : ((fun p => !p.2.visited) ∘ fun p =>
          if p.1 = c then (p.1, { p.2 with visited := true }) else p) p = (!p.2.visited) := by
        simp [hpc]
      simp only [List.countP_cons, h1]
      omega

theorem uvCount_setCdDistance (s : DS) (c : Coord) (d : Int) :
    uvCount (setCdDistance s c d) = uvCount s := by
  unfold uvCount setCdDistance
  simp only
  induction s.visitedCoordinates with
  | nil => rfl
  | cons p rest ih =>
    simp only [List.map_cons, List.countP_cons, ih]
    by_cases hpc : p.1 = c <;> simp [hpc]

/-- An unvisited entry with a live key forces a positive budget. -/
theorem uvCount_pos {s : DS} {c : Coord} {cd : Crossroad}
    (hl : lookupCd s c = some cd) (hv : cd.visited = false) : 1 ≤ uvCount s := by
  have hm := lookupCd_mem hl
  have : 0 < uvCount s := by
    unfold uvCount
    rw [List.countP_pos_iff]
    exact ⟨(c, cd), hm, by simp [hv]⟩
  omega

/-! ### `clean_for_search` lemmas -/

theorem cleanForSearch_lookup (s : DS) (mode : SearchMode) (c : Coord) :
    lookupCd (cleanForSearch s mode) c =
      (lookupCd s c).map (fun cd => { cd with distance := NO_VALUE, visited := false }) := by
  unfold lookupCd cleanForSearch
  cases mode <;> simp only <;>
    rw [find?_key_map (by intro p; simp)] <;>
    cases s.visitedCoordinates.find? (fun p => p.1 = c) <;> simp

theorem cleanForSearch_cdKeys (s : DS) (mode : SearchMode) :
    cdKeys (cleanForSearch s mode) = cdKeys s := by
  unfold cdKeys cleanForSearch
  cases mode <;> simp

theorem cleanForSearch_waysById (s : DS) (mode : SearchMode) :
    (cleanForSearch s mode).waysById = s.waysById := by
  unfold cleanForSearch; cases mode <;> rfl

theorem cleanForSearch_waysByCoord (s : DS) (mode : SearchMode) :
    (cleanForSearch s mode).waysByCoord = s.waysByCoord := by
  unfold cleanForSearch; cases mode <;> rfl

theorem cleanForSearch_routeFound (s : DS) (mode : SearchMode) :
    (cleanForSearch s mode).routeFound = false := by
  unfold cleanForSearch; cases mode <;> rfl

/-- After a reset every entry is unvisited, so the whole table is budget. -/
theorem uvCount_cleanForSearch (s : DS) (mode : SearchMode) :
    uvCount (cleanForSearch s mode) = s.visitedCoordinates.length := by
  unfold uvCount cleanForSearch
  cases mode <;> simp [List.countP_eq_length_filter, List.filter_map]

/-! ### Well-formedness used by the searches -/

/-- The structural facts the searches rely on: unique keys in both
keyed views, ids stored under themselves, the two Way Index views
mutually consistent, and a crossroad entry behind every incidence. -/
structure WFS (s : DS) : Prop where
  cdNodup : (s.visitedCoordinates.map Prod.fst).Nodup
  idNodup : (s.waysById.map Prod.fst).Nodup
  wellKeyed : ∀ p ∈ s.waysById, p.1 = p.2.id
  coordSound : ∀ q ∈ s.waysByCoord, (q.2.id, q.2) ∈ s.waysById ∧ (q.1 = q.2.end1 ∨ q.1 = q.2.end2)
  coordComplete : ∀ p ∈ s.waysById, (p.2.end1, p.2) ∈ s.waysByCoord ∧ (p.2.end2, p.2) ∈ s.waysByCoord
  cover : ∀ q ∈ s.waysByCoord, q.1 ∈ cdKeys s

theorem WFS.transfer_wfs {s s' : DS} (h : WFS s)
    (hid : s'.waysById = s.waysById) (hbc : s'.waysByCoord = s.waysByCoord)
    (hk : cdKeys s' = cdKeys s) : WFS s' where
  cdNodup := by
    have : cdKeys s' = cdKeys s := hk
    unfold cdKeys at this
    rw [this]
    exact h.cdNodup
  idNodup := by rw [hid]; exact h.idNodup
  wellKeyed := by rw [hid]; exact h.wellKeyed
  coordSound := by rw [hid, hbc]; exact h.coordSound
  coordComplete := by rw [hid, hbc]; exact h.coordComplete
  cover := by rw [hbc, hk]; exact h.cover

theorem lookupWayById_of_mem {s : DS} {wid : WayID} {w : Way}
    (hnd : (s.waysById.map Prod.fst).Nodup) (hm : (wid, w) ∈ s.waysById) :
    lookupWayById s wid = some w := by
  unfold lookupWayById
  have hsome : (s.waysById.find? (fun p => p.1 = wid)).isSome := by
    rw [List.find?_isSome]
    exact ⟨(wid, w), hm, by simp⟩
  cases hf : s.waysById.find? (fun p => p.1 = wid) with
  | none => rw [hf] at hsome; simp at hsome
  | some q =>
    have hq := List.find?_some hf
    have hqm := List.mem_of_find?_eq_some hf
    simp at hq
    have : q = (wid, w) := key_inj hnd hqm hm (by simpa using hq)
    simp [this]

/-- Soundness of the neighbour enumeration `ways_from`: every reported
pair is backed by a stored way connecting `c` to the reported
coordinate, and that coordinate has a crossroad entry. -/
theorem waysFrom_sound {s : DS} (h : WFS s) {c : Coord} {wid : WayID} {other : Coord}
    (hm : (wid, other) ∈ waysFrom s c) :
    ∃ w, (wid, w) ∈ s.waysById ∧
      ((c = w.end1 ∧ other = w.end2) ∨ (c = w.end2 ∧ other = w.end1)) ∧
      other ∈ cdKeys s := by
  unfold waysFrom equalRangeCoord at hm
  rcases List.mem_map.1 hm with ⟨q, hq, hpair⟩
  have hqc : q.1 = c := by
    have := List.of_mem_filter hq
    simpa using this
  have hqm : q ∈ s.waysByCoord := List.mem_of_mem_filter hq
  have hsound := h.coordSound q hqm
  refine ⟨q.2, ?_, ?_, ?_⟩
  · by_cases hce : c = q.2.end1
    · simp [hce] at hpair
      rcases hpair with ⟨h1, _⟩
      rw [← h1]
      exact hsound.1
    · simp [hce] at hpair
      rcases hpair with ⟨h1, _⟩
      rw [← h1]
      exact hsound.1
  · by_cases hce : c = q.2.end1
    · simp [hce] at hpair
      exact Or.inl ⟨hce, hpair.2.symm⟩
    · simp [hce] at hpair
      rcases hsound.2 with h2 | h2
      · exact absurd (hqc ▸ h2 : c = q.2.end1) hce
      · exact Or.inr ⟨hqc ▸ h2, hpair.2.symm⟩
  · have hcomp := h.coordComplete (q.2.id, q.2) hsound.1
    by_cases hce : c = q.2.end1
    · simp [hce] at hpair
      rw [← hpair.2]
      exact h.cover _ hcomp.2
    · simp [hce] at hpair
      rw [← hpair.2]
      exact h.cover _ hcomp.1

/-- A coordinate with at least one incident way has a crossroad entry. -/
theorem waysFrom_cover {s : DS} (h : WFS s) {c : Coord}
    (hne : waysFrom s c ≠ []) : c ∈ cdKeys s := by
  unfold waysFrom equalRangeCoord at hne
  cases hf : s.waysByCoord.filter (fun p => p.1 = c) with
  | nil => rw [hf] at hne; simp at hne
  | cons q rest =>
    have hq : q ∈ s.waysByCoord.filter (fun p => p.1 = c) := by rw [hf]; simp
    have hqc : q.1 = c := by simpa using List.of_mem_filter hq
    exact hqc ▸ h.cover q (List.mem_of_mem_filter hq)

/-! ### The state frame of one search call -/

/-- What one `search_any`/`search_cycle` call may change: only the
mutable crossroad fields of entries unvisited at write time, the found
flag and its own result buffer. -/
def SFrame (s s' : DS) : Prop :=
  s'.waysById = s.waysById ∧ s'.waysByCoord = s.waysByCoord ∧
  Evolves s.visitedCoordinates s'.visitedCoordinates ∧ s'.cyclicRoute = s.cyclicRoute

theorem SFrame.refl_sf (s : DS) : SFrame s s :=
  ⟨rfl, rfl, Evolves.refl_ev _, rfl⟩

theorem SFrame.trans_sf {s₁ s₂ s₃ : DS} (h₁ : SFrame s₁ s₂) (h₂ : SFrame s₂ s₃) : SFrame s₁ s₃ :=
  ⟨h₂.1.trans h₁.1, h₂.2.1.trans h₁.2.1, h₁.2.2.1.trans_ev h₂.2.2.1, h₂.2.2.2.trans h₁.2.2.2⟩

/-- The portion of `chosen_route_` pushed by one found unwind, read in
start-to-goal order: each entry carries the way leaving its coordinate
towards the next entry, distances accumulate by exactly that way's
length, and the final entry is the goal terminator `(goal, NO_WAY, d)`. -/
inductive RouteChain (W : List (WayID × Way)) (goal : Coord) :
    Coord → Int → List (Coord × WayID × Distance) → Prop where
  | last (d : Int) : RouteChain W goal goal d [(goal, NO_WAY, d)]
  | cons (c : Coord) (wid : WayID) (w : Way) (d : Int) (c₂ : Coord) (wid₂ : WayID) (d₂ : Distance)
      (tail : List (Coord × WayID × Distance))
      (hw : (wid, w) ∈ W)
      (hconn : (c = w.end1 ∧ c₂ = w.end2) ∨ (c = w.end2 ∧ c₂ = w.end1))
      (hrest : RouteChain W goal c₂ (d + w.length) ((c₂, wid₂, d₂) :: tail)) :
      RouteChain W goal c d ((c, wid, d) :: (c₂, wid₂, d₂) :: tail)

theorem RouteChain.head_shape {W : List (WayID × Way)} {goal c : Coord} {d : Int}
    {l : List (Coord × WayID × Distance)} (h : RouteChain W goal c d l) :
    ∃ wid tail, l = (c, wid, d) :: tail := by
  cases h with
  | last d => exact ⟨NO_WAY, [], rfl⟩
  | cons c wid w d c₂ wid₂ d₂ tail hw hconn hrest => exact ⟨wid, _, rfl⟩

/-- The conclusion of one successful `search_any` call starting at
`startc` with accumulated distance `len`. -/
def AnyConc (W : List (WayID × Way)) (goal startc : Coord) (len : Int) (s s' : DS) : Prop :=
  SFrame s s' ∧
  ((s'.routeFound = false ∧ s'.chosenRoute = s.chosenRoute) ∨
   (s'.routeFound = true ∧ ∃ E, s'.chosenRoute = s.chosenRoute ++ E ∧
      RouteChain W goal startc len E.reverse))

/-- The specification of `searchAny` at a given fuel. -/
def AnySpecIH (f : Nat) (goal : Coord) : Prop :=
  ∀ (current : Coord) (len : Int) (s : DS) (cd : Crossroad),
    WFS s → lookupCd s current = some cd → cd.visited = false → s.routeFound = false →
    uvCount s ≤ f →
    ∃ s', searchAny f current goal len s = .ok s' ∧ AnyConc s.waysById goal current len s s'

/-- Specification of the `search_any` neighbour loop, assuming the
specification of `search_any` at the loop's fuel. -/
theorem searchAnyLoop_spec (f : Nat) (goal : Coord) (IH : AnySpecIH f goal)
    (pairs : List (WayID × Coord)) :
    ∀ (current : Coord) (len : Int) (s : DS) (cdc : Crossroad),
    WFS s → s.routeFound = false →
    lookupCd s current = some cdc → cdc.visited = true → cdc.distance = len →
    uvCount s ≤ f →
    (∀ wid other, (wid, other) ∈ pairs → ∃ w, (wid, w) ∈ s.waysById ∧
        ((current = w.end1 ∧ other = w.end2) ∨ (current = w.end2 ∧ other = w.end1)) ∧
        other ∈ cdKeys s) →
    ∃ s', searchAnyLoop (fun c l st => searchAny f c goal l st) current len pairs s = .ok s' ∧
      AnyConc s.waysById goal current len s s' := by
  induction pairs with
  | nil =>
    intro current len s cdc hwf hrf hlc hvc hdc hfuel hpairs
    exact ⟨s, rfl, SFrame.refl_sf s, Or.inl ⟨hrf, rfl⟩⟩
  | cons pr rest ihrest =>
    intro current len s cdc hwf hrf hlc hvc hdc hfuel hpairs
    obtain ⟨wid, other⟩ := pr
    obtain ⟨w, hwmem, hconn, hkey⟩ := hpairs wid other (List.mem_cons_self _ _)
    obtain ⟨cdO, hcdO⟩ := lookupCd_mem_keys hkey
    simp only [searchAnyLoop]
    rw [hcdO]
    simp only
    by_cases hvO : cdO.visited
    · rw [if_pos hvO]
      exact ihrest current len s cdc hwf hrf hlc hvc hdc hfuel
        (fun wid' other' hm => hpairs wid' other' (List.mem_cons_of_mem _ hm))
    · rw [if_neg hvO]
      rw [lookupWayById_of_mem hwf.idNodup hwmem]
      simp only
      obtain ⟨s', hrun, hframe, hdisj⟩ :=
        IH other (len + w.length) s cdO hwf hcdO (by simpa using hvO) hrf hfuel
      rw [hrun]
      simp only
      have hfrozen : lookupCd s' current = some cdc :=
        Evolves.lookup_frozen hframe.2.2.1 hlc hvc
      by_cases hfound : s'.routeFound
      · rw [if_pos hfound, hfrozen]
        simp only
        rcases hdisj with ⟨hrf', _⟩ | ⟨_, E, hchosen, hchain⟩
        · rw [hfound] at hrf'; cases hrf'
        · refine ⟨_, rfl, ?_, Or.inr ⟨hfound, E ++ [(current, wid, cdc.distance)], ?_, ?_⟩⟩
          · exact ⟨hframe.1, hframe.2.1, hframe.2.2.1, hframe.2.2.2⟩
          · simp [hchosen]
          · obtain ⟨wid₂, tail, hE⟩ := hchain.head_shape
            rw [hdc, List.reverse_append]
            simp only [List.reverse_singleton, List.singleton_append, hE]
            rw [hE] at hchain
            exact RouteChain.cons current wid w len other wid₂ (len + w.length) tail
              hwmem hconn hchain
      · rw [if_neg hfound]
        rcases hdisj with ⟨hrf', hchosen'⟩ | ⟨hfound', _⟩
        · have hwf' : WFS s' :=
            hwf.transfer_wfs hframe.1 hframe.2.1 hframe.2.2.1.cdKeys_eq
          have hfuel' : uvCount s' ≤ f := le_trans hframe.2.2.1.uvCount_le hfuel
          obtain ⟨s'', hrun'', hframe'', hdisj''⟩ :=
            ihrest current len s' cdc hwf' hrf' hfrozen hvc hdc hfuel'
              (fun wid' other' hm => by
                obtain ⟨w', hw', hconn', hkey'⟩ := hpairs wid' other' (List.mem_cons_of_mem _ hm)
                exact ⟨w', hframe.1 ▸ hw', hconn', hframe.2.2.1.cdKeys_eq ▸ hkey'⟩)
          refine ⟨s'', hrun'', hframe.trans_sf hframe'', ?_⟩
          rcases hdisj'' with ⟨ha, hb⟩ | ⟨ha, E, hb, hc⟩
          · exact Or.inl ⟨ha, hb.trans hchosen'⟩
          · exact Or.inr ⟨ha, E, by rw [hb, hchosen'], by rw [← hframe.1]; exact hc⟩
        · exact absurd hfound' hfound


/-- Specification of `search_any`: with fuel at least the number of
unvisited entries, the call completes without error, touches only the
search scratch state, and when it reports the route found the pushed
buffer segment is a valid chain from the current coordinate to the
goal. -/
theorem searchAny_spec : ∀ (f : Nat) (goal : Coord), AnySpecIH f goal := by
  intro f
  induction f with
  | zero =>
    intro goal current len s cd hwf hl hv hrf hfuel
    exact absurd (uvCount_pos hl hv) (by omega)
  | succ f ihf =>
    intro goal current len s cd hwf hl hv hrf hfuel
    simp only [searchAny]
    rw [hl]
    simp only
    have hl1 : lookupCd (setCdDistance s current len) current = some { cd with distance := len } :=
      lookupCd_setCdDistance_self hl
    have hl2 : lookupCd (setCdVisited (setCdDistance s current len) current true) current =
        some { { cd with distance := len } with visited := true } :=
      lookupCd_setCdVisited_self hl1
    have hev : Evolves s.visitedCoordinates
        (setCdVisited (setCdDistance s current len) current true).visitedCoordinates :=
      (evolves_setCdDistance hwf.cdNodup hl hv).trans_ev
        (evolves_setCdVisited_true (setCdDistance s current len) current)
    have hkeys : cdKeys (setCdVisited (setCdDistance s current len) current true) = cdKeys s := by
      rw [cdKeys_setCdVisited, cdKeys_setCdDistance]
    have huv : uvCount (setCdVisited (setCdDistance s current len) current true) ≤ f := by
      have h1 := uvCount_setCdVisited_lt hl1 (by simp [hv])
      have h2 := uvCount_setCdDistance s current len
      omega
    have hwf2 : WFS (setCdVisited (setCdDistance s current len) current true) :=
      hwf.transfer_wfs rfl rfl hkeys
    by_cases hg : current = goal
    · rw [if_pos hg]
      rw [hl2]
      simp only
      refine ⟨_, rfl, ?_, ?_⟩
      · exact ⟨rfl, rfl, hev, rfl⟩
      · refine Or.inr ⟨rfl, [(goal, NO_WAY, len)], rfl, ?_⟩
        simp only [List.reverse_singleton]
        rw [hg]
        exact RouteChain.last len
    · rw [if_neg hg]
      obtain ⟨s', hrun, hframe, hdisj⟩ :=
        searchAnyLoop_spec f goal (ihf goal)
          (waysFrom (setCdVisited (setCdDistance s current len) current true) current)
          current len (setCdVisited (setCdDistance s current len) current true)
          { { cd with distance := len } with visited := true }
          hwf2 hrf hl2 rfl rfl huv
          (fun wid other hm => waysFrom_sound hwf2 hm)
      have hf0 : SFrame s (setCdVisited (setCdDistance s current len) current true) :=
        ⟨rfl, rfl, hev, rfl⟩
      refine ⟨s', hrun, ?_, ?_⟩
      · exact SFrame.trans_sf hf0 hframe
      · rcases hdisj with ⟨ha, hb⟩ | ⟨ha, E, hb, hc⟩
        · exact Or.inl ⟨ha, hb⟩
        · exact Or.inr ⟨ha, E, hb, hc⟩

/-! ### Specification of `search_cycle` (totality and frame) -/

/-- What one `search_cycle` call may change: like `SFrame` but with the
path buffer untouched instead of the cycle buffer. -/
def CFrame (s s' : DS) : Prop :=
  s'.waysById = s.waysById ∧ s'.waysByCoord = s.waysByCoord ∧
  Evolves s.visitedCoordinates s'.visitedCoordinates ∧ s'.chosenRoute = s.chosenRoute

theorem CFrame.refl_cf (s : DS) : CFrame s s :=
  ⟨rfl, rfl, Evolves.refl_ev _, rfl⟩

theorem CFrame.trans_cf {s₁ s₂ s₃ : DS} (h₁ : CFrame s₁ s₂) (h₂ : CFrame s₂ s₃) : CFrame s₁ s₃ :=
  ⟨h₂.1.trans h₁.1, h₂.2.1.trans h₁.2.1, h₁.2.2.1.trans_ev h₂.2.2.1, h₂.2.2.2.trans h₁.2.2.2⟩

/-- The specification of `searchCycle` at a given fuel: one spare unit
of fuel beyond the unvisited entries suffices, because the terminating
call may re-enter an already visited coordinate. -/
def CycSpecIH (f : Nat) : Prop :=
  ∀ (current previous : Coord) (s : DS) (cd : Crossroad),
    WFS s → lookupCd s current = some cd → uvCount s + 1 ≤ f →
    ∃ s', searchCycle f current previous s = .ok s' ∧ CFrame s s'

/-- Specification of the `search_cycle` neighbour loop, assuming the
specification of `search_cycle` at the loop's fuel. -/
theorem searchCycleLoop_spec (f : Nat) (IH : CycSpecIH f) (pairs : List (WayID × Coord)) :
    ∀ (current previous : Coord) (s : DS),
    WFS s → uvCount s + 1 ≤ f →
    (∀ wid other, (wid, other) ∈ pairs → other ∈ cdKeys s) →
    ∃ s', searchCycleLoop (fun c p st => searchCycle f c p st) current previous pairs s = .ok s' ∧
      CFrame s s' := by
  induction pairs with
  | nil =>
    intro current previous s hwf hfuel hpairs
    exact ⟨s, rfl, CFrame.refl_cf s⟩
  | cons pr rest ihrest =>
    intro current previous s hwf hfuel hpairs
    obtain ⟨wid, other⟩ := pr
    simp only [searchCycleLoop]
    by_cases hprev : other = previous
    · rw [if_pos hprev]
      exact ihrest current previous s hwf hfuel
        (fun wid' other' hm => hpairs wid' other' (List.mem_cons_of_mem _ hm))
    · rw [if_neg hprev]
      obtain ⟨cdO, hcdO⟩ := lookupCd_mem_keys (hpairs wid other (List.mem_cons_self _ _))
      obtain ⟨s', hrun, hframe⟩ := IH other current s cdO hwf hcdO hfuel
      rw [hrun]
      simp only
      by_cases hfound : s'.routeFound
      · rw [if_pos hfound]
        refine ⟨_, rfl, ?_⟩
        exact ⟨hframe.1, hframe.2.1, hframe.2.2.1, hframe.2.2.2⟩
      · rw [if_neg hfound]
        have hwf' : WFS s' := hwf.transfer_wfs hframe.1 hframe.2.1 hframe.2.2.1.cdKeys_eq
        have hfuel' : uvCount s' + 1 ≤ f := by
          have := hframe.2.2.1.uvCount_le
          omega
        obtain ⟨s'', hrun'', hframe''⟩ :=
          ihrest current previous s' hwf' hfuel'
            (fun wid' other' hm =>
              hframe.2.2.1.cdKeys_eq ▸ hpairs wid' other' (List.mem_cons_of_mem _ hm))
        exact ⟨s'', hrun'', hframe.trans_cf hframe''⟩

/-- Specification of `search_cycle`: fuel `unvisited + 1` suffices and
the call only touches the search scratch state. -/
theorem searchCycle_spec : ∀ (f : Nat), CycSpecIH f := by
  intro f
  induction f with
  | zero =>
    intro current previous s cd hwf hl hfuel
    omega
  | succ f ihf =>
    intro current previous s cd hwf hl hfuel
    simp only [searchCycle]
    rw [hl]
    simp only
    by_cases hv : cd.visited
    · rw [if_pos hv]
      refine ⟨_, rfl, ?_⟩
      exact ⟨rfl, rfl, Evolves.refl_ev _, rfl⟩
    · rw [if_neg hv]
      have hl1 : lookupCd (setCdVisited s current true) current =
          some { cd with visited := true } :=
        lookupCd_setCdVisited_self hl
      have hev : Evolves s.visitedCoordinates (setCdVisited s current true).visitedCoordinates :=
        evolves_setCdVisited_true s current
      have hkeys : cdKeys (setCdVisited s current true) = cdKeys s := cdKeys_setCdVisited s current true
      have hwf1 : WFS (setCdVisited s current true) := hwf.transfer_wfs rfl rfl hkeys
      have huv : uvCount (setCdVisited s current true) + 1 ≤ f := by
        have := uvCount_setCdVisited_lt hl (by simpa using hv)
        omega
      have hf0 : CFrame s (setCdVisited s current true) := ⟨rfl, rfl, hev, rfl⟩
      obtain ⟨s', hrun, hframe⟩ :=
        searchCycleLoop_spec f ihf (waysFrom (setCdVisited s current true) current)
          current previous (setCdVisited s current true) hwf1 huv
          (fun wid other hm => (waysFrom_sound hwf1 hm).choose_spec.2.2)
      exact ⟨s', hrun, hf0.trans_cf hframe⟩

/-! ### The global invariant tying the two Way Index views and the
crossroad table together -/

/-- The incidences a list of ways contributes to the coordinate view:
each way once under each endpoint (twice under the same coordinate for
a self-loop). -/
def incidencesOf (l : List (WayID × Way)) : List (Coord × Way) :=
  l.flatMap (fun p => [(p.2.end1, p.2), (p.2.end2, p.2)])

theorem mem_incidencesOf {l : List (WayID × Way)} {q : Coord × Way} :
    q ∈ incidencesOf l ↔ ∃ p ∈ l, q = (p.2.end1, p.2) ∨ q = (p.2.end2, p.2) := by
  simp only [incidencesOf, List.mem_flatMap, List.mem_cons, List.mem_singleton,
    List.not_mem_nil, or_false]

/-- The state invariant maintained by every exposed operation. -/
structure DSInv (s : DS) : Prop where
  cdNodup : (s.visitedCoordinates.map Prod.fst).Nodup
  idNodup : (s.waysById.map Prod.fst).Nodup
  wellKeyed : ∀ p ∈ s.waysById, p.1 = p.2.id
  perm : s.waysByCoord.Perm (incidencesOf s.waysById)
  cover : ∀ q ∈ s.waysByCoord, q.1 ∈ cdKeys s
  tight : ∀ c ∈ cdKeys s, ∃ p ∈ s.waysById, c = p.2.end1 ∨ c = p.2.end2

theorem DSInv.toWFS {s : DS} (h : DSInv s) : WFS s where
  cdNodup := h.cdNodup
  idNodup := h.idNodup
  wellKeyed := h.wellKeyed
  coordSound := by
    intro q hq
    rcases mem_incidencesOf.1 (h.perm.mem_iff.1 hq) with ⟨p, hp, hcase⟩
    have hk := h.wellKeyed p hp
    rcases hcase with rfl | rfl
    · exact ⟨by rw [← hk]; simpa using hp, Or.inl rfl⟩
    · exact ⟨by rw [← hk]; simpa using hp, Or.inr rfl⟩
  coordComplete := by
    intro p hp
    constructor
    · exact h.perm.symm.mem_iff.1 (mem_incidencesOf.2 ⟨p, hp, Or.inl rfl⟩)
    · exact h.perm.symm.mem_iff.1 (mem_incidencesOf.2 ⟨p, hp, Or.inr rfl⟩)
  cover := h.cover

theorem DSInv.transfer_inv {s s' : DS} (h : DSInv s)
    (hid : s'.waysById = s.waysById) (hbc : s'.waysByCoord = s.waysByCoord)
    (hk : cdKeys s' = cdKeys s) : DSInv s' where
  cdNodup := by
    have : cdKeys s' = cdKeys s := hk
    unfold cdKeys at this
    rw [this]
    exact h.cdNodup
  idNodup := by rw [hid]; exact h.idNodup
  wellKeyed := by rw [hid]; exact h.wellKeyed
  perm := by rw [hid, hbc]; exact h.perm
  cover := by rw [hbc, hk]; exact h.cover
  tight := by rw [hid, hk]; exact h.tight

/-! ### `ensureCd` lemmas -/

theorem ensureCd_waysById (s : DS) (c : Coord) : (ensureCd s c).waysById = s.waysById := by
  unfold ensureCd; split <;> rfl

theorem ensureCd_waysByCoord (s : DS) (c : Coord) : (ensureCd s c).waysByCoord = s.waysByCoord := by
  unfold ensureCd; split <;> rfl

theorem lookupCd_isSome_iff {s : DS} {c : Coord} :
    (lookupCd s c).isSome ↔ c ∈ cdKeys s := by
  constructor
  · intro h
    cases hl : lookupCd s c with
    | none => rw [hl] at h; simp at h
    | some cd => exact lookupCd_keys_of_some hl
  · intro h
    obtain ⟨cd, hcd⟩ := lookupCd_mem_keys h
    simp [hcd]

theorem cdKeys_insertCd (s : DS) (c : Coord) : cdKeys (insertCd s c) = cdKeys s ++ [c] := by
  unfold cdKeys insertCd
  simp

theorem mem_cdKeys_ensureCd {s : DS} {c c' : Coord} :
    c' ∈ cdKeys (ensureCd s c) ↔ c' ∈ cdKeys s ∨ c' = c := by
  unfold ensureCd
  split
  · rename_i h
    constructor
    · exact Or.inl
    · rintro (h' | rfl)
      · exact h'
      · exact lookupCd_isSome_iff.1 h
  · rw [cdKeys_insertCd]
    simp

theorem cdNodup_ensureCd {s : DS} (h : (s.visitedCoordinates.map Prod.fst).Nodup) (c : Coord) :
    ((ensureCd s c).visitedCoordinates.map Prod.fst).Nodup := by
  unfold ensureCd
  split
  · exact h
  · rename_i hn
    unfold insertCd
    simp only [List.map_append, List.map_cons, List.map_nil]
    rw [List.nodup_append]
    refine ⟨h, List.nodup_singleton c, ?_⟩
    intro a ha hb
    simp at hb
    subst hb
    exact hn (lookupCd_isSome_iff.2 ha)

/-! ### Reachable states and invariant preservation -/

/-- States reachable through the exposed phase-2 mutators and queries,
starting from a freshly constructed object. -/
inductive Reachable : DS → Prop where
  | init : Reachable initDS
  | add (s : DS) (id : WayID) (coords : List Coord) :
      Reachable s → Reachable (addWay s id coords).2
  | remove (s : DS) (id : WayID) : Reachable s → Reachable (removeWay s id).2
  | clear (s : DS) : Reachable s → Reachable (clearWays s)
  | rany (s : DS) (a b : Coord) (r : List (Coord × WayID × Distance) × DS) :
      Reachable s → routeAny s a b = .ok r → Reachable r.2
  | rcyc (s : DS) (a : Coord) (r : List (Coord × WayID) × DS) :
      Reachable s → routeWithCycle s a = .ok r → Reachable r.2

theorem dsinv_initDS : DSInv initDS where
  cdNodup := List.nodup_nil
  idNodup := List.nodup_nil
  wellKeyed := by intro p hp; cases hp
  perm := List.Perm.refl _
  cover := by intro q hq; cases hq
  tight := by intro c hc; cases hc

theorem dsinv_addWay (s : DS) (id : WayID) (coords : List Coord) (h : DSInv s) :
    DSInv (addWay s id coords).2 := by
  unfold addWay
  cases hlk : lookupWayById s id with
  | some w => exact h
  | none =>
    simp only
    have hid_notin : id ∉ s.waysById.map Prod.fst := by
      unfold lookupWayById at hlk
      have hfind : s.waysById.find? (fun p => p.1 = id) = none := by
        cases hf : s.waysById.find? (fun p => p.1 = id) with
        | none => rfl
        | some p => rw [hf] at hlk; simp at hlk
      intro hmem
      rcases List.mem_map.1 hmem with ⟨p, hp, hfst⟩
      exact absurd (by simpa using hfst) (by simpa using List.find?_eq_none.1 hfind p hp)
    refine { cdNodup := ?_, idNodup := ?_, wellKeyed := ?_, perm := ?_, cover := ?_, tight := ?_ }
    · refine cdNodup_ensureCd (cdNodup_ensureCd ?_ _) _
      exact h.cdNodup
    · rw [ensureCd_waysById, ensureCd_waysById]
      simp only [List.map_append, List.map_cons, List.map_nil]
      rw [List.nodup_append]
      exact ⟨h.idNodup, List.nodup_singleton id, by
        intro a ha hb
        simp at hb
        subst hb
        exact hid_notin ha⟩
    · rw [ensureCd_waysById, ensureCd_waysById]
      intro p hp
      rcases List.mem_append.1 hp with hp' | hp'
      · exact h.wellKeyed p hp'
      · simp at hp'
        subst hp'
        rfl
    · rw [ensureCd_waysByCoord, ensureCd_waysByCoord, ensureCd_waysById, ensureCd_waysById]
      simp only
      unfold incidencesOf
      rw [List.flatMap_append]
      exact h.perm.append (List.Perm.refl _)
    · rw [ensureCd_waysByCoord, ensureCd_waysByCoord]
      intro q hq
      simp only at hq
      rcases List.mem_append.1 hq with hq' | hq'
      · exact mem_cdKeys_ensureCd.2 (Or.inl (mem_cdKeys_ensureCd.2 (Or.inl (h.cover q hq'))))
      · simp at hq'
        rcases hq' with rfl | rfl
        · exact mem_cdKeys_ensureCd.2 (Or.inl (mem_cdKeys_ensureCd.2 (Or.inr
            (by simp [List.headD_eq_head?]))))
        · exact mem_cdKeys_ensureCd.2 (Or.inr (by simp [List.getLastD_eq_getLast?]))
    · rw [ensureCd_waysById, ensureCd_waysById]
      intro c hc
      rcases mem_cdKeys_ensureCd.1 hc with hc' | rfl
      · rcases mem_cdKeys_ensureCd.1 hc' with hc'' | rfl
        · obtain ⟨p, hp, hend⟩ := h.tight c hc''
          exact ⟨p, List.mem_append_left _ hp, hend⟩
        · exact ⟨(id, mkWay id coords), List.mem_append_right _ (by simp), Or.inl rfl⟩
      · exact ⟨(id, mkWay id coords), List.mem_append_right _ (by simp), Or.inr rfl⟩

theorem dsinv_clearWays (s : DS) : DSInv (clearWays s) where
  cdNodup := List.nodup_nil
  idNodup := List.nodup_nil
  wellKeyed := by intro p hp; cases hp
  perm := List.Perm.refl _
  cover := by intro q hq; cases hq
  tight := by intro c hc; cases hc

/-! ### Totality and frame of the route queries -/

theorem waysFrom_congr {s s' : DS} (h : s'.waysByCoord = s.waysByCoord) (c : Coord) :
    waysFrom s' c = waysFrom s c := by
  unfold waysFrom equalRangeCoord
  rw [h]

/-- `route_any` with any sufficient recursion budget completes, and
changes nothing but the search scratch state (in particular the set of
crossroad entries is untouched). -/
theorem routeAnyAux_total (s : DS) (a b : Coord) (fuel : Nat) (h : DSInv s)
    (hfuel : s.visitedCoordinates.length ≤ fuel) :
    ∃ l s', routeAnyAux fuel s a b = .ok (l, s') ∧ s'.waysById = s.waysById ∧
      s'.waysByCoord = s.waysByCoord ∧ cdKeys s' = cdKeys s := by
  unfold routeAnyAux
  by_cases hcond : (waysFrom s b).length = 0 ∨ (waysFrom s a).length = 0
  · rw [if_pos hcond]
    exact ⟨_, s, rfl, rfl, rfl, rfl⟩
  · rw [if_neg hcond]
    push_neg at hcond
    have hane : waysFrom s a ≠ [] := by
      intro he
      exact hcond.2 (by rw [he]; rfl)
    have hwfc : WFS (cleanForSearch s .NORMAL) :=
      h.toWFS.transfer_wfs (cleanForSearch_waysById s _) (cleanForSearch_waysByCoord s _)
        (cleanForSearch_cdKeys s _)
    have hmem : a ∈ cdKeys (cleanForSearch s .NORMAL) := by
      rw [cleanForSearch_cdKeys]
      exact waysFrom_cover h.toWFS hane
    obtain ⟨cd0, hcd0⟩ := lookupCd_mem_keys hmem
    have hv0 : cd0.visited = false := by
      rw [cleanForSearch_lookup] at hcd0
      cases hls : lookupCd s a with
      | none => rw [hls] at hcd0; simp at hcd0
      | some cdx =>
        rw [hls] at hcd0
        simp at hcd0
        rw [← hcd0]
    have huv : uvCount (cleanForSearch s .NORMAL) ≤ fuel := by
      rw [uvCount_cleanForSearch]
      exact hfuel
    obtain ⟨s2, hrun, hframe, _⟩ :=
      searchAny_spec fuel b a 0 (cleanForSearch s .NORMAL) cd0 hwfc hcd0 hv0
        (cleanForSearch_routeFound s _) huv
    rw [hrun]
    simp only
    refine ⟨_, _, rfl, ?_, ?_, ?_⟩
    · rw [show ({ s2 with chosenRoute := s2.chosenRoute.reverse } : DS).waysById = s2.waysById
        from rfl, hframe.1, cleanForSearch_waysById]
    · rw [show ({ s2 with chosenRoute := s2.chosenRoute.reverse } : DS).waysByCoord = s2.waysByCoord
        from rfl, hframe.2.1, cleanForSearch_waysByCoord]
    · rw [show cdKeys ({ s2 with chosenRoute := s2.chosenRoute.reverse } : DS) = cdKeys s2
        from rfl, hframe.2.2.1.cdKeys_eq, cleanForSearch_cdKeys]

/-- `route_with_cycle` with any sufficient recursion budget completes,
with the same frame guarantee. -/
theorem routeWithCycleAux_total (s : DS) (a : Coord) (fuel : Nat) (h : DSInv s)
    (hfuel : s.visitedCoordinates.length + 1 ≤ fuel) :
    ∃ l s', routeWithCycleAux fuel s a = .ok (l, s') ∧ s'.waysById = s.waysById ∧
      s'.waysByCoord = s.waysByCoord ∧ cdKeys s' = cdKeys s := by
  unfold routeWithCycleAux
  by_cases hcond : (waysFrom s a).length = 0
  · rw [if_pos hcond]
    exact ⟨_, s, rfl, rfl, rfl, rfl⟩
  · rw [if_neg hcond]
    have hane : waysFrom s a ≠ [] := by
      intro he
      exact hcond (by rw [he]; rfl)
    have hwfc : WFS (cleanForSearch s .CYCLE) :=
      h.toWFS.transfer_wfs (cleanForSearch_waysById s _) (cleanForSearch_waysByCoord s _)
        (cleanForSearch_cdKeys s _)
    have hmem : a ∈ cdKeys (cleanForSearch s .CYCLE) := by
      rw [cleanForSearch_cdKeys]
      exact waysFrom_cover h.toWFS hane
    obtain ⟨cd0, hcd0⟩ := lookupCd_mem_keys hmem
    have huv : uvCount (cleanForSearch s .CYCLE) + 1 ≤ fuel := by
      rw [uvCount_cleanForSearch]
      exact hfuel
    obtain ⟨s2, hrun, hframe⟩ :=
      searchCycle_spec fuel a NO_COORD (cleanForSearch s .CYCLE) cd0 hwfc hcd0 huv
    rw [hrun]
    simp only
    refine ⟨_, _, rfl, ?_, ?_, ?_⟩
    · rw [show ({ s2 with cyclicRoute := s2.cyclicRoute.reverse } : DS).waysById = s2.waysById
        from rfl, hframe.1, cleanForSearch_waysById]
    · rw [show ({ s2 with cyclicRoute := s2.cyclicRoute.reverse } : DS).waysByCoord = s2.waysByCoord
        from rfl, hframe.2.1, cleanForSearch_waysByCoord]
    · rw [show cdKeys ({ s2 with cyclicRoute := s2.cyclicRoute.reverse } : DS) = cdKeys s2
        from rfl, hframe.2.2.1.cdKeys_eq, cleanForSearch_cdKeys]

/-! ### List lemmas supporting `remove_way` -/

/-- When every element matching the predicate equals `a`, erasing the
first match removes exactly one copy of `a` from the multiset of
elements. -/
theorem eraseP_perm_of_perm_cons {α : Type} {p : α → Bool} {a : α} {l l' : List α}
    (hpa : p a = true) (hperm : l.Perm (a :: l'))
    (huniq : ∀ x ∈ l, p x = true → x = a) :
    (l.eraseP p).Perm l' := by
  have hal : a ∈ l := hperm.mem_iff.2 (List.mem_cons_self _ _)
  obtain ⟨b, l₁, l₂, hl₁, hpb, hsplit, herase⟩ := List.exists_of_eraseP hal hpa
  have hb : b = a :=
    huniq b (by rw [hsplit]; exact List.mem_append_right _ (List.mem_cons_self _ _)) hpb
  subst hb
  rw [herase]
  have h1 : (l₁ ++ b :: l₂).Perm (b :: l') := hsplit ▸ hperm
  exact (List.perm_middle.symm.trans h1).cons_inv

theorem eraseIncidence_subset (l : List (Coord × Way)) (c : Coord) (id : WayID) :
    eraseIncidence l c id ⊆ l := by
  unfold eraseIncidence
  exact (List.eraseP_sublist _).subset

theorem exists_incidence_of_waysFrom_ne_nil {s : DS} {c : Coord}
    (h : (waysFrom s c).length ≠ 0) : ∃ q ∈ s.waysByCoord, q.1 = c := by
  unfold waysFrom equalRangeCoord at h
  rw [List.length_map] at h
  cases hf : s.waysByCoord.filter (fun p => p.1 = c) with
  | nil => rw [hf] at h; simp at h
  | cons q rest =>
    have hq : q ∈ s.waysByCoord.filter (fun p => p.1 = c) := by rw [hf]; simp
    exact ⟨q, List.mem_of_mem_filter hq, by simpa using List.of_mem_filter hq⟩

theorem waysFrom_length_ne_zero_of_mem {s : DS} {q : Coord × Way}
    (hq : q ∈ s.waysByCoord) : (waysFrom s q.1).length ≠ 0 := by
  unfold waysFrom equalRangeCoord
  rw [List.length_map]
  intro hlen
  rw [List.length_eq_zero] at hlen
  have : q ∈ s.waysByCoord.filter (fun p => p.1 = q.1) :=
    List.mem_filter.2 ⟨hq, by simp⟩
  rw [hlen] at this
  cases this

theorem cdKeys_eraseCd (s : DS) (c : Coord) :
    cdKeys (eraseCd s c) = (cdKeys s).filter (fun x => ¬ x = c) := by
  unfold cdKeys eraseCd
  simp only
  induction s.visitedCoordinates with
  | nil => rfl
  | cons p t ih =>
    simp only [decide_not] at ih
    by_cases hp : p.1 = c
    · simp [List.filter_cons, hp, ih]
    · simp [List.filter_cons, hp, ih]

theorem removeStage_waysById (s : DS) (c : Coord) (id : WayID) :
    (removeStage s c id).waysById = s.waysById := by
  unfold removeStage
  split <;> rfl

theorem removeStage_waysByCoord (s : DS) (c : Coord) (id : WayID) :
    (removeStage s c id).waysByCoord = eraseIncidence s.waysByCoord c id := by
  unfold removeStage
  split <;> rfl

/-- Membership in the crossroad table across one removal step: the key
survives iff it was present and, when it is the erased endpoint, some
incidence under it remains after the incidence erase. -/
theorem mem_cdKeys_removeStage {s : DS} {c : Coord} {id : WayID} {c' : Coord} :
    c' ∈ cdKeys (removeStage s c id) ↔
      c' ∈ cdKeys s ∧
        (c' = c →
          (waysFrom { s with waysByCoord := eraseIncidence s.waysByCoord c id } c).length ≠ 0) := by
  unfold removeStage
  split
  · rename_i h0
    rw [cdKeys_eraseCd]
    show c' ∈ (cdKeys { s with waysByCoord := eraseIncidence s.waysByCoord c id }).filter _ ↔ _
    rw [List.mem_filter]
    constructor
    · rintro ⟨hmem, hne⟩
      exact ⟨hmem, fun he => absurd (by simpa using hne) (by simp [he])⟩
    · rintro ⟨hmem, himp⟩
      refine ⟨hmem, ?_⟩
      simp only [decide_not]
      by_cases he : c' = c
      · exact absurd h0 (himp he)
      · simp [he]
  · rename_i h0
    exact ⟨fun hm => ⟨hm, fun _ => h0⟩, fun hm => hm.1⟩

theorem cdKeys_removeStage_sublist (s : DS) (c : Coord) (id : WayID) :
    (cdKeys (removeStage s c id)).Sublist (cdKeys s) := by
  unfold removeStage
  split
  · rw [cdKeys_eraseCd]
    exact List.filter_sublist _
  · exact List.Sublist.refl _


/-- A successful id lookup exposes a member of the id view. -/
theorem lookupWayById_mem {s : DS} {id : WayID} {w : Way}
    (hlk : lookupWayById s id = some w) : (id, w) ∈ s.waysById := by
  unfold lookupWayById at hlk
  cases hf : s.waysById.find? (fun p => p.1 = id) with
  | none => rw [hf] at hlk; simp at hlk
  | some q =>
    rw [hf] at hlk
    simp at hlk
    have hq1 := List.find?_some hf
    have hqm := List.mem_of_find?_eq_some hf
    simp at hq1
    rcases q with ⟨qi, qw⟩
    simp at hlk hq1
    subst hlk
    subst hq1
    exact hqm

/-- `remove_way` preserves the state invariant. -/
theorem dsinv_removeWay (s : DS) (id : WayID) (h : DSInv s) : DSInv (removeWay s id).2 := by
  unfold removeWay
  cases hlk : lookupWayById s id with
  | none => exact h
  | some w =>
    simp only
    have hmem : (id, w) ∈ s.waysById := lookupWayById_mem hlk
    have hwid : w.id = id := (h.wellKeyed _ hmem).symm
    obtain ⟨A, B, hAB⟩ := List.append_of_mem hmem
    have hndAB : ((A ++ (id, w) :: B).map Prod.fst).Nodup := by rw [← hAB]; exact h.idNodup
    have hidAB : id ∉ (A.map Prod.fst ++ B.map Prod.fst) := by
      have h2 := hndAB
      rw [List.map_append, List.map_cons, List.nodup_middle] at h2
      exact (List.nodup_cons.1 h2).1
    have hABnd : ((A ++ B).map Prod.fst).Nodup := by
      have h2 := hndAB
      rw [List.map_append, List.map_cons, List.nodup_middle] at h2
      have h3 := (List.nodup_cons.1 h2).2
      rwa [← List.map_append] at h3
    have hAkeys : ∀ p ∈ A, ¬ p.1 = id := fun p hp he =>
      hidAB (List.mem_append_left _ (List.mem_map.2 ⟨p, hp, he⟩))
    have hBkeys : ∀ p ∈ B, ¬ p.1 = id := fun p hp he =>
      hidAB (List.mem_append_right _ (List.mem_map.2 ⟨p, hp, he⟩))
    have hfilterAB : s.waysById.filter (fun p => ¬ p.1 = id) = A ++ B := by
      rw [hAB, List.filter_append, List.filter_cons]
      rw [List.filter_eq_self.2 (fun a ha => by simpa using hAkeys a ha),
          List.filter_eq_self.2 (fun a ha => by simpa using hBkeys a ha)]
      simp
    have hpermMid : s.waysById.Perm ((id, w) :: (A ++ B)) := by
      rw [hAB]; exact List.perm_middle
    have hI : (incidencesOf s.waysById).Perm
        ((w.end1, w) :: (w.end2, w) :: incidencesOf (A ++ B)) := by
      have h2 := hpermMid.flatMap_right (fun p => [(p.2.end1, p.2), (p.2.end2, p.2)])
      simpa [incidencesOf] using h2
    have huniq1 : ∀ x ∈ s.waysByCoord,
        (decide (x.1 = w.end1) && decide (x.2.id = id)) = true → x = (w.end1, w) := by
      intro x hx hpx
      obtain ⟨x1, x2⟩ := x
      simp only [Bool.and_eq_true, decide_eq_true_eq] at hpx
      have hs := (h.toWFS.coordSound (x1, x2) hx).1
      simp only at hs
      rw [hpx.2] at hs
      have hxw := key_inj h.idNodup hs hmem rfl
      have hx2 : x2 = w := congrArg Prod.snd hxw
      rw [hpx.1, hx2]
    have hpermL1 : (eraseIncidence s.waysByCoord w.end1 id).Perm
        ((w.end2, w) :: incidencesOf (A ++ B)) := by
      unfold eraseIncidence
      exact eraseP_perm_of_perm_cons (by simp [hwid]) (h.perm.trans hI) huniq1
    have hsubL1 : eraseIncidence s.waysByCoord w.end1 id ⊆ s.waysByCoord :=
      eraseIncidence_subset _ _ _
    have huniq2 : ∀ x ∈ eraseIncidence s.waysByCoord w.end1 id,
        (decide (x.1 = w.end2) && decide (x.2.id = id)) = true → x = (w.end2, w) := by
      intro x hx hpx
      obtain ⟨x1, x2⟩ := x
      simp only [Bool.and_eq_true, decide_eq_true_eq] at hpx
      have hs := (h.toWFS.coordSound (x1, x2) (hsubL1 hx)).1
      simp only at hs
      rw [hpx.2] at hs
      have hxw := key_inj h.idNodup hs hmem rfl
      have hx2 : x2 = w := congrArg Prod.snd hxw
      rw [hpx.1, hx2]
    have hpermL2 : (eraseIncidence (eraseIncidence s.waysByCoord w.end1 id) w.end2 id).Perm
        (incidencesOf (A ++ B)) := by
      unfold eraseIncidence
      exact eraseP_perm_of_perm_cons (by simp [hwid]) hpermL1 huniq2
    have hBbyId : (removeStage s w.end1 id).waysById = s.waysById :=
      removeStage_waysById s w.end1 id
    have hDbyId : (removeStage (removeStage s w.end1 id) w.end2 id).waysById = s.waysById := by
      rw [removeStage_waysById, removeStage_waysById]
    have hBbyCoord : (removeStage s w.end1 id).waysByCoord =
        eraseIncidence s.waysByCoord w.end1 id :=
      removeStage_waysByCoord s w.end1 id
    have hDbyCoord : (removeStage (removeStage s w.end1 id) w.end2 id).waysByCoord =
        eraseIncidence (eraseIncidence s.waysByCoord w.end1 id) w.end2 id := by
      rw [removeStage_waysByCoord, hBbyCoord]
    generalize hsB : removeStage s w.end1 id = sB
    generalize hsD : removeStage sB w.end2 id = sD
    rw [hsB] at hBbyCoord hDbyId hDbyCoord
    rw [hsD] at hDbyId hDbyCoord
    refine { cdNodup := ?_, idNodup := ?_, wellKeyed := ?_, perm := ?_, cover := ?_, tight := ?_ }
    · have hsub1 : (cdKeys sB).Sublist (cdKeys s) := by
        rw [← hsB]
        exact cdKeys_removeStage_sublist s w.end1 id
      have hsub2 : (cdKeys sD).Sublist (cdKeys sB) := by
        rw [← hsD]
        exact cdKeys_removeStage_sublist sB w.end2 id
      exact List.Nodup.sublist (hsub2.trans hsub1) h.cdNodup
    · show ((List.filter (fun p => ¬ p.1 = id) sD.waysById).map Prod.fst).Nodup
      rw [hDbyId, hfilterAB]
      exact hABnd
    · intro p hp
      have hp2 : p ∈ List.filter (fun p => ¬ p.1 = id) sD.waysById := hp
      rw [hDbyId] at hp2
      exact h.wellKeyed p (List.mem_of_mem_filter hp2)
    · show sD.waysByCoord.Perm (incidencesOf (List.filter (fun p => ¬ p.1 = id) sD.waysById))
      rw [hDbyCoord, hDbyId, hfilterAB]
      exact hpermL2
    · intro q hq
      have hq2 : q ∈ eraseIncidence (eraseIncidence s.waysByCoord w.end1 id) w.end2 id := by
        rw [← hDbyCoord]
        exact hq
      have hq1 : q ∈ eraseIncidence s.waysByCoord w.end1 id := eraseIncidence_subset _ _ _ hq2
      show q.1 ∈ cdKeys sD
      rw [← hsD]
      refine mem_cdKeys_removeStage.2 ⟨?_, ?_⟩
      · rw [← hsB]
        refine mem_cdKeys_removeStage.2 ⟨?_, ?_⟩
        · exact h.cover q (hsubL1 hq1)
        · intro he1
          have h3 := waysFrom_length_ne_zero_of_mem
            (show q ∈ ({ s with waysByCoord := eraseIncidence s.waysByCoord w.end1 id } : DS).waysByCoord
              from hq1)
          rw [he1] at h3
          exact h3
      · intro he2
        have hq2' : q ∈ ({ sB with
            waysByCoord := eraseIncidence sB.waysByCoord w.end2 id } : DS).waysByCoord := by
          show q ∈ eraseIncidence sB.waysByCoord w.end2 id
          rw [hBbyCoord]
          exact hq2
        have h3 := waysFrom_length_ne_zero_of_mem hq2'
        rw [he2] at h3
        exact h3
    · intro c' hc'
      have hc'2 : c' ∈ cdKeys sD := hc'
      rw [← hsD] at hc'2
      obtain ⟨hcB, himp2⟩ := mem_cdKeys_removeStage.1 hc'2
      rw [← hsB] at hcB
      obtain ⟨hcS, himp1⟩ := mem_cdKeys_removeStage.1 hcB
      obtain ⟨p, hp, hend⟩ := h.tight c' hcS
      by_cases hpid : p.1 = id
      · have hpw : p = (id, w) := key_inj h.idNodup hp hmem hpid
        have hend' : c' = w.end1 ∨ c' = w.end2 := by rw [hpw] at hend; exact hend
        by_cases he2 : c' = w.end2
        · have hne := himp2 he2
          obtain ⟨q', hq', hq'k⟩ := exists_incidence_of_waysFrom_ne_nil hne
          have hq'2 : q' ∈ eraseIncidence (eraseIncidence s.waysByCoord w.end1 id) w.end2 id := by
            have hq'3 : q' ∈ eraseIncidence sB.waysByCoord w.end2 id := hq'
            rw [hBbyCoord] at hq'3
            exact hq'3
          have hq'I : q' ∈ incidencesOf (A ++ B) := hpermL2.mem_iff.1 hq'2
          rcases mem_incidencesOf.1 hq'I with ⟨p', hp', hcase⟩
          refine ⟨p', ?_, ?_⟩
          · show p' ∈ List.filter (fun p => ¬ p.1 = id) sD.waysById
            rw [hDbyId, hfilterAB]
            exact hp'
          · rcases hcase with rfl | rfl
            · exact Or.inl (he2.trans hq'k.symm)
            · exact Or.inr (he2.trans hq'k.symm)
        · have he1 : c' = w.end1 := hend'.resolve_right he2
          have hne := himp1 he1
          obtain ⟨q', hq', hq'k⟩ := exists_incidence_of_waysFrom_ne_nil hne
          have hq'1 : q' ∈ eraseIncidence s.waysByCoord w.end1 id := hq'
          have hq'T : q' ∈ (w.end2, w) :: incidencesOf (A ++ B) := hpermL1.mem_iff.1 hq'1
          have hq'ne : q' ≠ (w.end2, w) := by
            intro he
            rw [he] at hq'k
            exact he2 (by rw [he1, ← hq'k])
          have hq'I : q' ∈ incidencesOf (A ++ B) := (List.mem_cons.1 hq'T).resolve_left hq'ne
          rcases mem_incidencesOf.1 hq'I with ⟨p', hp', hcase⟩
          refine ⟨p', ?_, ?_⟩
          · show p' ∈ List.filter (fun p => ¬ p.1 = id) sD.waysById
            rw [hDbyId, hfilterAB]
            exact hp'
          · rcases hcase with rfl | rfl
            · exact Or.inl (he1.trans hq'k.symm)
            · exact Or.inr (he1.trans hq'k.symm)
      · refine ⟨p, ?_, hend⟩
        show p ∈ List.filter (fun p => ¬ p.1 = id) sD.waysById
        rw [hDbyId]
        exact List.mem_filter.2 ⟨hp, by simpa using hpid⟩

/-- `route_any` preserves the state invariant. -/
theorem dsinv_routeAny {s : DS} {a b : Coord} {r : List (Coord × WayID × Distance) × DS}
    (h : DSInv s) (hr : routeAny s a b = .ok r) : DSInv r.2 := by
  obtain ⟨l, s', hok, h1, h2, h3⟩ :=
    routeAnyAux_total s a b (s.visitedCoordinates.length + 1) h (by omega)
  unfold routeAny at hr
  rw [hok] at hr
  cases hr
  exact h.transfer_inv h1 h2 h3

/-- `route_with_cycle` preserves the state invariant. -/
theorem dsinv_routeWithCycle {s : DS} {a : Coord} {r : List (Coord × WayID) × DS}
    (h : DSInv s) (hr : routeWithCycle s a = .ok r) : DSInv r.2 := by
  obtain ⟨l, s', hok, h1, h2, h3⟩ :=
    routeWithCycleAux_total s a (s.visitedCoordinates.length + 1) h (by omega)
  unfold routeWithCycle at hr
  rw [hok] at hr
  cases hr
  exact h.transfer_inv h1 h2 h3

/-- Every reachable state satisfies the invariant. -/
theorem dsinv_of_reachable {s : DS} (h : Reachable s) : DSInv s := by
  induction h with
  | init => exact dsinv_initDS
  | add s id coords _ ih => exact dsinv_addWay s id coords ih
  | remove s id _ ih => exact dsinv_removeWay s id ih
  | clear s _ ih => exact dsinv_clearWays s
  | rany s a b r _ hok ih => exact dsinv_routeAny ih hok
  | rcyc s a r _ hok ih => exact dsinv_routeWithCycle ih hok

/-! ### Walks and properties of found routes -/

/-- A walk in the way graph: a sequence of stored ways, each connecting
the current coordinate to the next. -/
inductive Walk (W : List (WayID × Way)) : Coord → Coord → Prop where
  | refl (c : Coord) : Walk W c c
  | step (c c' c'' : Coord) (wid : WayID) (w : Way) (hw : (wid, w) ∈ W)
      (hconn : (c = w.end1 ∧ c' = w.end2) ∨ (c = w.end2 ∧ c' = w.end1))
      (h : Walk W c' c'') : Walk W c c''

theorem RouteChain.walk {W : List (WayID × Way)} {goal c : Coord} {d : Int}
    {l : List (Coord × WayID × Distance)} (h : RouteChain W goal c d l) : Walk W c goal := by
  induction h with
  | last d => exact Walk.refl goal
  | cons c wid w d c₂ wid₂ d₂ tail hw hconn hrest ih => exact Walk.step c c₂ goal wid w hw hconn ih

theorem RouteChain.last_entry {W : List (WayID × Way)} {goal c : Coord} {d : Int}
    {l : List (Coord × WayID × Distance)} (h : RouteChain W goal c d l) :
    ∃ dT, l.getLast? = some (goal, NO_WAY, dT) := by
  induction h with
  | last d => exact ⟨d, rfl⟩
  | cons c wid w d c₂ wid₂ d₂ tail hw hconn hrest ih =>
    rw [List.getLast?_cons_cons]
    exact ih

theorem RouteChain.pairwise {W : List (WayID × Way)} {goal : Coord}
    {l : List (Coord × WayID × Distance)} :
    ∀ {c : Coord} {d : Int}, RouteChain W goal c d l →
    ∀ i, (hi : i + 1 < l.length) → ∃ w,
      ((l.get ⟨i, by omega⟩).2.1, w) ∈ W ∧
      (((l.get ⟨i, by omega⟩).1 = w.end1 ∧ (l.get ⟨i + 1, hi⟩).1 = w.end2) ∨
       ((l.get ⟨i, by omega⟩).1 = w.end2 ∧ (l.get ⟨i + 1, hi⟩).1 = w.end1)) ∧
      (l.get ⟨i + 1, hi⟩).2.2 - (l.get ⟨i, by omega⟩).2.2 = w.length := by
  induction l with
  | nil =>
    intro c d h i hi
    simp at hi
  | cons e rest ih =>
    intro c d h i hi
    cases h with
    | last d =>
      simp at hi
    | cons c wid w d c₂ wid₂ d₂ tail hw hconn hrest =>
      cases i with
      | zero =>
        obtain ⟨wid', tail', hshape⟩ := hrest.head_shape
        have hd₂ : d₂ = d + w.length := by
          have := congrArg (fun l => l.headD (NO_COORD, NO_WAY, 0)) hshape
          simp at this
          exact this.2
        exact ⟨w, hw, hconn, by simp [hd₂]⟩
      | succ j =>
        have hi' : j + 1 < ((c₂, wid₂, d₂) :: tail).length := by
          simp at hi ⊢
          omega
        obtain ⟨w', hw', hconn', hd'⟩ := ih hrest j hi'
        exact ⟨w', hw', hconn', hd'⟩

/-- The precondition-failure sentinel of `route_any`, returned without
searching and without touching the state. -/
theorem routeAny_sentinel (s : DS) (a b : Coord)
    (hc : waysFrom s b = [] ∨ waysFrom s a = []) :
    routeAny s a b = .ok ([(NO_COORD, NO_WAY, NO_DISTANCE)], s) := by
  unfold routeAny routeAnyAux
  rw [if_pos]
  rcases hc with hc | hc
  · exact Or.inl (by rw [hc]; rfl)
  · exact Or.inr (by rw [hc]; rfl)

/-- When the precondition check passes, `route_any` completes and
returns either the empty sequence (nothing found) or a chain from `a`
to `b` with cumulative distances starting at 0. -/
theorem routeAny_search_result (s : DS) (a b : Coord) (h : DSInv s)
    (hb : waysFrom s b ≠ []) (ha : waysFrom s a ≠ []) :
    ∃ l s', routeAny s a b = .ok (l, s') ∧
      (l = [] ∨ RouteChain s.waysById b a 0 l) := by
  unfold routeAny routeAnyAux
  rw [if_neg]
  · have hwfc : WFS (cleanForSearch s .NORMAL) :=
      h.toWFS.transfer_wfs (cleanForSearch_waysById s _) (cleanForSearch_waysByCoord s _)
        (cleanForSearch_cdKeys s _)
    have hmem : a ∈ cdKeys (cleanForSearch s .NORMAL) := by
      rw [cleanForSearch_cdKeys]
      exact waysFrom_cover h.toWFS ha
    obtain ⟨cd0, hcd0⟩ := lookupCd_mem_keys hmem
    have hv0 : cd0.visited = false := by
      rw [cleanForSearch_lookup] at hcd0
      cases hls : lookupCd s a with
      | none => rw [hls] at hcd0; simp at hcd0
      | some cdx =>
        rw [hls] at hcd0
        simp at hcd0
        rw [← hcd0]
    have huv : uvCount (cleanForSearch s .NORMAL) ≤ s.visitedCoordinates.length + 1 := by
      rw [uvCount_cleanForSearch]
      omega
    obtain ⟨s2, hrun, hframe, hdisj⟩ :=
      searchAny_spec (s.visitedCoordinates.length + 1) b a 0 (cleanForSearch s .NORMAL) cd0
        hwfc hcd0 hv0 (cleanForSearch_routeFound s _) huv
    rw [hrun]
    simp only
    refine ⟨s2.chosenRoute.reverse, _, rfl, ?_⟩
    rcases hdisj with ⟨_, hroute⟩ | ⟨_, E, hroute, hchain⟩
    · left
      rw [hroute]
      have : (cleanForSearch s .NORMAL).chosenRoute = [] := by
        unfold cleanForSearch
        rfl
      rw [this]
      rfl
    · right
      rw [hroute]
      have h0 : (cleanForSearch s .NORMAL).chosenRoute = [] := by
        unfold cleanForSearch
        rfl
      rw [h0, List.nil_append]
      have hW : (cleanForSearch s .NORMAL).waysById = s.waysById := cleanForSearch_waysById s _
      rw [← hW]
      exact hchain
  · rintro (hlen | hlen)
    · exact hb (by rwa [← List.length_eq_zero])
    · exact ha (by rwa [← List.length_eq_zero])


/-- `route_any(x, x)` with at least one incident way at `x` finds the
one-entry route immediately. -/
theorem routeAny_self (s : DS) (x : Coord) (h : DSInv s) (hx : waysFrom s x ≠ []) :
    ∃ s', routeAny s x x = .ok ([(x, NO_WAY, 0)], s') := by
  unfold routeAny routeAnyAux
  rw [if_neg (by rintro (hl | hl) <;> exact hx (by rwa [← List.length_eq_zero]))]
  have hmem : x ∈ cdKeys (cleanForSearch s .NORMAL) := by
    rw [cleanForSearch_cdKeys]
    exact waysFrom_cover h.toWFS hx
  obtain ⟨cd0, hcd0⟩ := lookupCd_mem_keys hmem
  simp only [searchAny]
  rw [hcd0]
  simp only
  simp only [if_true]
  have hl1 := lookupCd_setCdDistance_self (d := 0) hcd0
  have hl2 := lookupCd_setCdVisited_self (b := true) hl1
  rw [hl2]
  simp only
  exact ⟨_, rfl⟩

/-! ### Concrete states exercised by the claims -/

/-- Two ways `(0,0)-(0,3)` and `(0,3)-(4,3)` (the specification's
worked example). -/
def exampleTwoWays : DS :=
  (addWay (addWay initDS "W1" [⟨0, 0⟩, ⟨0, 3⟩]).2 "W2" [⟨0, 3⟩, ⟨4, 3⟩]).2

theorem reachable_exampleTwoWays : Reachable exampleTwoWays :=
  Reachable.add _ "W2" _ (Reachable.add _ "W1" _ Reachable.init)

/-- The example graph plus a disconnected way `(10,10)-(10,12)`. -/
def exampleDisconnected : DS :=
  (addWay exampleTwoWays "W3" [⟨10, 10⟩, ⟨10, 12⟩]).2

theorem reachable_exampleDisconnected : Reachable exampleDisconnected :=
  Reachable.add _ "W3" _ reachable_exampleTwoWays

/-- Two parallel ways between `(0,0)` and the coordinate
`(MIN_INT, MIN_INT)` — the same value as the sentinel `NO_COORD`. -/
def exampleSentinelAlias : DS :=
  (addWay (addWay initDS "W1" [⟨0, 0⟩, NO_COORD]).2 "W2" [⟨0, 0⟩, NO_COORD]).2

theorem reachable_exampleSentinelAlias : Reachable exampleSentinelAlias :=
  Reachable.add _ "W2" _ (Reachable.add _ "W1" _ Reachable.init)

/-- A single self-loop way at `(1,1)`. -/
def exampleSelfLoop : DS :=
  (addWay initDS "L" [⟨1, 1⟩, ⟨1, 1⟩]).2

theorem reachable_exampleSelfLoop : Reachable exampleSelfLoop :=
  Reachable.add _ "L" _ Reachable.init

/-- The route list computed by `route_any` (empty on error). -/
def routeAnyList (s : DS) (a b : Coord) : List (Coord × WayID × Distance) :=
  match routeAny s a b with
  | .ok (l, _) => l
  | .error _ => []

/-- The route list computed by `route_with_cycle` (empty on error). -/
def routeWithCycleList (s : DS) (a : Coord) : List (Coord × WayID) :=
  match routeWithCycle s a with
  | .ok (l, _) => l
  | .error _ => []

/-- Transcription of claim C1's wording, used to test the claim as
stated: every pair of consecutive entries `(ci, wi, di)`,
`(ci+1, wi+1, di+1)` has `wi+1` a stored way with endpoints `ci` and
`ci+1` and `di+1 - di` equal to its length, with `d0 = 0` at the first
entry. -/
def claimOneCheck (s : DS) (l : List (Coord × WayID × Distance)) : Bool :=
  (match l with
   | [] => true
   | e :: _ => decide (e.2.2 = 0)) &&
  (l.zip l.tail).all (fun pr =>
    match lookupWayById s pr.2.2.1 with
    | none => false
    | some w =>
      decide (((pr.1.1 = w.end1 ∧ pr.2.1 = w.end2) ∨ (pr.1.1 = w.end2 ∧ pr.2.1 = w.end1)) ∧
        pr.2.2.2 - pr.1.2.2 = w.length))

/-- Transcription of the specification's validity of one cycle-walk
step sequence: each step's way is stored and connects the current
coordinate to the step's coordinate. -/
def validStepsB (W : List (WayID × Way)) : Coord → List (WayID × Coord) → Bool
  | _, [] => true
  | c, (wid, c') :: rest =>
    W.any (fun p =>
      decide (p.1 = wid) &&
        (decide (c = p.2.end1) && decide (c' = p.2.end2) ||
         decide (c = p.2.end2) && decide (c' = p.2.end1))) &&
    validStepsB W c' rest

/-- Transcription of the specification's "without immediately retracing
the last edge used": no step is followed by the same way taken straight
back to the coordinate it came from. -/
def noBacktrackB : Coord → List (WayID × Coord) → Bool
  | _, [] => true
  | _, [_] => true
  | p, (w1, c1) :: (w2, c2) :: rest =>
    !(decide (w2 = w1) && decide (c2 = p)) && noBacktrackB c1 ((w2, c2) :: rest)

/-- Transcription of claim C3's cycle notion: a non-empty valid walk
from `c0` that never immediately retraces the last edge and revisits
some coordinate. -/
def CycleFrom (s : DS) (c0 : Coord) : Prop :=
  ∃ steps : List (WayID × Coord), steps ≠ [] ∧ validStepsB s.waysById c0 steps = true ∧
    noBacktrackB c0 steps = true ∧ ¬ (c0 :: steps.map Prod.snd).Nodup

/-! ### The integer square root agrees with `Nat.sqrt` and with the
floor of the real square root -/

theorem isqrtGo_sq_le (n : Nat) : ∀ k, isqrtGo n k * isqrtGo n k ≤ n := by
  intro k
  induction k with
  | zero => simp [isqrtGo]
  | succ k ih =>
    unfold isqrtGo
    by_cases hc : (k + 1) * (k + 1) ≤ n
    · simp [hc]
    · simpa [hc] using ih

theorem isqrtGo_ge (n : Nat) : ∀ k j, j ≤ k → j * j ≤ n → j ≤ isqrtGo n k := by
  intro k
  induction k with
  | zero =>
    intro j hj _
    simpa [isqrtGo] using hj
  | succ k ih =>
    intro j hj hsq
    unfold isqrtGo
    by_cases hc : (k + 1) * (k + 1) ≤ n
    · simp only [hc, if_pos]
      exact hj
    · have hjk : j ≤ k := by
        rcases Nat.lt_or_ge j (k + 1) with hlt | hge
        · omega
        · exact absurd (Nat.le_trans (Nat.mul_le_mul hge hge) hsq) hc
      simpa [hc] using ih j hjk hsq

theorem isqrt_eq_sqrt (n : Nat) : isqrt n = Nat.sqrt n := by
  have h1 : isqrt n ≤ Nat.sqrt n := Nat.le_sqrt.2 (isqrtGo_sq_le n n)
  have h2 : Nat.sqrt n ≤ isqrt n :=
    isqrtGo_ge n n (Nat.sqrt n) (Nat.sqrt_le_self n) (Nat.sqrt_le n)
  omega

/-- Whether a search result is the fuel-exhaustion error. -/
def isOutOfFuel {α : Type} : Except SearchErr α → Bool
  | .error .outOfFuel => true
  | _ => false

/-! ### Remaining supporting lemmas -/

/-- The state `route_any` leaves behind (the input state on error). -/
def routeAnyState (s : DS) (a b : Coord) : DS :=
  match routeAny s a b with
  | .ok (_, s') => s'
  | .error _ => s

/-- A Boolean coordinate property that both endpoints of every stored
way share is constant along every walk. -/
theorem walk_invariant {W : List (WayID × Way)} (P : Coord → Bool)
    (hP : ∀ p ∈ W, P p.2.end1 = P p.2.end2) {a b : Coord} (h : Walk W a b) :
    P a = P b := by
  induction h with
  | refl c => rfl
  | step c c' c'' wid w hw hconn _ ih =>
    have hpw := hP (wid, w) hw
    rcases hconn with ⟨h1, h2⟩ | ⟨h1, h2⟩
    · rw [h1, hpw, ← h2, ih]
    · rw [h1, ← hpw, ← h2, ih]

/-- Membership in the connected component `{(0,0), (0,3), (4,3)}` of
the disconnected example graph. -/
def discComp (c : Coord) : Bool :=
  decide (c = ⟨0, 0⟩) || decide (c = ⟨0, 3⟩) || decide (c = ⟨4, 3⟩)

/-- In the disconnected example there is no walk from `(0,0)` to the
isolated way's endpoint `(10,10)`. -/
theorem no_walk_exampleDisconnected :
    ¬ Walk exampleDisconnected.waysById ⟨0, 0⟩ ⟨10, 10⟩ := by
  intro h
  have hinv : ∀ p ∈ exampleDisconnected.waysById, discComp p.2.end1 = discComp p.2.end2 := by
    decide
  have := walk_invariant discComp hinv h
  exact absurd this (by decide)

/-- `add_way` either leaves the id view unchanged (duplicate id) or
appends exactly the new way. -/
theorem addWay_waysById (s : DS) (id : WayID) (coords : List Coord) :
    (addWay s id coords).2.waysById = s.waysById ∨
    (addWay s id coords).2.waysById = s.waysById ++ [(id, mkWay id coords)] := by
  unfold addWay
  cases hlk : lookupWayById s id with
  | some w => exact Or.inl rfl
  | none =>
    simp only
    rw [ensureCd_waysById, ensureCd_waysById]
    exact Or.inr rfl

/-- `remove_way` either leaves the id view unchanged (unknown id) or
filters the removed id out of it. -/
theorem removeWay_waysById (s : DS) (id : WayID) :
    (removeWay s id).2.waysById = s.waysById ∨
    (removeWay s id).2.waysById = s.waysById.filter (fun p => ¬ p.1 = id) := by
  unfold removeWay
  cases hlk : lookupWayById s id with
  | none => exact Or.inl rfl
  | some w =>
    simp only
    rw [removeStage_waysById, removeStage_waysById]
    exact Or.inr rfl

/-- Every stored way carries the length computed by the `Way`
constructor from its own coordinate list: the length is set at
creation and no operation ever rewrites it. -/
theorem wayLengths_of_reachable {s : DS} (h : Reachable s) :
    ∀ p ∈ s.waysById, p.2.length = calcLength p.2.coordinates := by
  induction h with
  | init => intro p hp; cases hp
  | add s id coords _ ih =>
    intro p hp
    rcases addWay_waysById s id coords with he | he
    · rw [he] at hp; exact ih p hp
    · rw [he] at hp
      rcases List.mem_append.1 hp with hp' | hp'
      · exact ih p hp'
      · simp at hp'
        subst hp'
        rfl
  | remove s id _ ih =>
    intro p hp
    rcases removeWay_waysById s id with he | he
    · rw [he] at hp; exact ih p hp
    · rw [he] at hp
      exact ih p (List.mem_of_mem_filter hp)
  | clear s _ _ => intro p hp; cases hp
  | rany s a b r hs hok ih =>
    intro p hp
    obtain ⟨l, s', hok', h1, _, _⟩ :=
      routeAnyAux_total s a b (s.visitedCoordinates.length + 1) (dsinv_of_reachable hs) (by omega)
    unfold routeAny at hok
    rw [hok'] at hok
    cases hok
    rw [h1] at hp
    exact ih p hp
  | rcyc s a r hs hok ih =>
    intro p hp
    obtain ⟨l, s', hok', h1, _, _⟩ :=
      routeWithCycleAux_total s a (s.visitedCoordinates.length + 1) (dsinv_of_reachable hs)
        (by omega)
    unfold routeWithCycle at hok
    rw [hok'] at hok
    cases hok
    rw [h1] at hp
    exact ih p hp

/-- The accumulating length loop equals the sum over consecutive
coordinate pairs of the per-segment length. -/
theorem calcLength_eq_zip (coords : List Coord) :
    calcLength coords = ((coords.zip coords.tail).map (fun pq => segLen pq.1 pq.2)).sum := by
  induction coords with
  | nil => rfl
  | cons c rest ih =>
    cases rest with
    | nil => rfl
    | cons c2 rest2 =>
      have hstep : calcLength (c :: c2 :: rest2) = segLen c c2 + calcLength (c2 :: rest2) := rfl
      rw [hstep, ih]
      rfl

/-- The per-segment length of the `Way` constructor is the floor of
the real Euclidean distance between the two coordinates. -/
theorem segLen_eq_floor (c1 c2 : Coord) :
    segLen c1 c2 = ⌊Real.sqrt ((((c1.x - c2.x) ^ 2 + (c1.y - c2.y) ^ 2 : Int) : ℝ))⌋ := by
  have hnn : (0 : Int) ≤ (c1.x - c2.x) * (c1.x - c2.x) + (c1.y - c2.y) * (c1.y - c2.y) :=
    add_nonneg (mul_self_nonneg _) (mul_self_nonneg _)
  have hreal : ((((c1.x - c2.x) * (c1.x - c2.x) + (c1.y - c2.y) * (c1.y - c2.y)).toNat : ℕ) : ℝ) =
      (((c1.x - c2.x) ^ 2 + (c1.y - c2.y) ^ 2 : Int) : ℝ) := by
    rw [← Int.cast_natCast (R := ℝ), Int.toNat_of_nonneg hnn]
    exact congrArg Int.cast (by ring)
  unfold segLen
  rw [← hreal, Real.floor_real_sqrt_eq_nat_sqrt, isqrt_eq_sqrt]
  rfl

/-! ### The claims -/

/-- Claim C1, counterexample to the stated pairing: on the worked
example the result of `route_any((0,0),(4,3))` is non-empty and
non-sentinel, yet the claimed consecutive-entry property — entry
`i + 1` carries the way connecting coordinate `i` to coordinate
`i + 1` — is false of it: each entry in fact carries the way used to
leave its own coordinate, and the first entry is not `NO_WAY`. -/
theorem claim_C1_counterexample :
    routeAnyList exampleTwoWays ⟨0, 0⟩ ⟨4, 3⟩ ≠ [] ∧
    routeAnyList exampleTwoWays ⟨0, 0⟩ ⟨4, 3⟩ ≠ [(NO_COORD, NO_WAY, NO_DISTANCE)] ∧
    claimOneCheck exampleTwoWays (routeAnyList exampleTwoWays ⟨0, 0⟩ ⟨4, 3⟩) = false :=
  ⟨by decide, by decide, by decide⟩

/-- Claim C1, amended: every non-sentinel, non-empty `route_any`
result starts at the start coordinate with distance 0, ends with
`(goal, NO_WAY, total)`, and for each pair of consecutive entries
`(ci, wi, di)`, `(ci+1, wi+1, di+1)` it is `wi` (the way of the
EARLIER entry) that is stored in the Way Index with endpoints `ci`
and `ci+1` and length `di+1 - di`. -/
theorem claim_C1_amended (s : DS) (a b : Coord) (h : Reachable s)
    (l : List (Coord × WayID × Distance)) (s' : DS)
    (hok : routeAny s a b = .ok (l, s'))
    (hne : l ≠ []) (hns : l ≠ [(NO_COORD, NO_WAY, NO_DISTANCE)]) :
    (∃ wid, l.head? = some (a, wid, 0)) ∧
    (∃ dT, l.getLast? = some (b, NO_WAY, dT)) ∧
    ∀ i, (hi : i + 1 < l.length) → ∃ w,
      ((l.get ⟨i, by omega⟩).2.1, w) ∈ s.waysById ∧
      (((l.get ⟨i, by omega⟩).1 = w.end1 ∧ (l.get ⟨i + 1, hi⟩).1 = w.end2) ∨
       ((l.get ⟨i, by omega⟩).1 = w.end2 ∧ (l.get ⟨i + 1, hi⟩).1 = w.end1)) ∧
      (l.get ⟨i + 1, hi⟩).2.2 - (l.get ⟨i, by omega⟩).2.2 = w.length := by
  by_cases hc : waysFrom s b = [] ∨ waysFrom s a = []
  · rw [routeAny_sentinel s a b hc] at hok
    cases hok
    exact absurd rfl hns
  · push_neg at hc
    obtain ⟨l₂, s₂, hok₂, hdisj⟩ := routeAny_search_result s a b (dsinv_of_reachable h) hc.1 hc.2
    rw [hok₂] at hok
    cases hok
    rcases hdisj with rfl | hchain
    · exact absurd rfl hne
    · obtain ⟨wid, tail, hshape⟩ := hchain.head_shape
      refine ⟨⟨wid, by rw [hshape]; rfl⟩, hchain.last_entry, ?_⟩
      intro i hi
      exact hchain.pairwise i hi

/-- Claim C1, witness: the amended theorem applied to the concrete
result of `route_any((0,0),(4,3))` on the two-way example. -/
theorem claim_C1_amended_witness :
    (∃ wid, ([((⟨0, 0⟩ : Coord), ("W1" : WayID), (0 : Distance)),
              (⟨0, 3⟩, "W2", 3), (⟨4, 3⟩, NO_WAY, 7)]).head? = some (⟨0, 0⟩, wid, 0)) ∧
    (∃ dT, ([((⟨0, 0⟩ : Coord), ("W1" : WayID), (0 : Distance)),
             (⟨0, 3⟩, "W2", 3), (⟨4, 3⟩, NO_WAY, 7)]).getLast? = some (⟨4, 3⟩, NO_WAY, dT)) ∧
    ∀ i, (hi : i + 1 < ([((⟨0, 0⟩ : Coord), ("W1" : WayID), (0 : Distance)),
             (⟨0, 3⟩, "W2", 3), (⟨4, 3⟩, NO_WAY, 7)]).length) → ∃ w,
      ((([((⟨0, 0⟩ : Coord), ("W1" : WayID), (0 : Distance)),
          (⟨0, 3⟩, "W2", 3), (⟨4, 3⟩, NO_WAY, 7)]).get ⟨i, by omega⟩).2.1, w) ∈
        exampleTwoWays.waysById ∧
      (((([((⟨0, 0⟩ : Coord), ("W1" : WayID), (0 : Distance)),
           (⟨0, 3⟩, "W2", 3), (⟨4, 3⟩, NO_WAY, 7)]).get ⟨i, by omega⟩).1 = w.end1 ∧
        (([((⟨0, 0⟩ : Coord), ("W1" : WayID), (0 : Distance)),
           (⟨0, 3⟩, "W2", 3), (⟨4, 3⟩, NO_WAY, 7)]).get ⟨i + 1, hi⟩).1 = w.end2) ∨
       ((([((⟨0, 0⟩ : Coord), ("W1" : WayID), (0 : Distance)),
           (⟨0, 3⟩, "W2", 3), (⟨4, 3⟩, NO_WAY, 7)]).get ⟨i, by omega⟩).1 = w.end2 ∧
        (([((⟨0, 0⟩ : Coord), ("W1" : WayID), (0 : Distance)),
           (⟨0, 3⟩, "W2", 3), (⟨4, 3⟩, NO_WAY, 7)]).get ⟨i + 1, hi⟩).1 = w.end1)) ∧
      (([((⟨0, 0⟩ : Coord), ("W1" : WayID), (0 : Distance)),
         (⟨0, 3⟩, "W2", 3), (⟨4, 3⟩, NO_WAY, 7)]).get ⟨i + 1, hi⟩).2.2 -
        (([((⟨0, 0⟩ : Coord), ("W1" : WayID), (0 : Distance)),
           (⟨0, 3⟩, "W2", 3), (⟨4, 3⟩, NO_WAY, 7)]).get ⟨i, by omega⟩).2.2 = w.length :=
  claim_C1_amended exampleTwoWays ⟨0, 0⟩ ⟨4, 3⟩ reachable_exampleTwoWays
    [(⟨0, 0⟩, "W1", 0), (⟨0, 3⟩, "W2", 3), (⟨4, 3⟩, NO_WAY, 7)]
    (routeAnyState exampleTwoWays ⟨0, 0⟩ ⟨4, 3⟩) (by rfl) (by decide) (by decide)

/-- Claim C2, counterexample to the stated sequence: on the worked
example (`W1` of length 3, `W2` of length 4), `route_any((0,0),(4,3))`
does not return `[((0,0), NO_WAY, 0), ((0,3), W1, 3), ((4,3), W2, 7)]`
— the way ids sit one entry earlier. -/
theorem claim_C2_counterexample :
    routeAnyList exampleTwoWays ⟨0, 0⟩ ⟨4, 3⟩ ≠
      [(⟨0, 0⟩, NO_WAY, 0), (⟨0, 3⟩, "W1", 3), (⟨4, 3⟩, "W2", 7)] := by
  decide

/-- Claim C2, amended: with exactly `W1: (0,0)-(0,3)` (length 3) and
`W2: (0,3)-(4,3)` (length 4) stored, `route_any((0,0),(4,3))` returns
exactly `[((0,0), W1, 0), ((0,3), W2, 3), ((4,3), NO_WAY, 7)]` — the
cumulative distances 0, 3, 7 in start-to-goal order, with each entry
carrying the way used to LEAVE its coordinate and `NO_WAY` at the
goal. -/
theorem claim_C2_amended :
    (lookupWayById exampleTwoWays "W1").map Way.length = some 3 ∧
    (lookupWayById exampleTwoWays "W2").map Way.length = some 4 ∧
    routeAnyList exampleTwoWays ⟨0, 0⟩ ⟨4, 3⟩ =
      [(⟨0, 0⟩, "W1", 0), (⟨0, 3⟩, "W2", 3), (⟨4, 3⟩, NO_WAY, 7)] := by
  refine ⟨by decide, by decide, by decide⟩

/-- Claim C3, the code bug: in the reachable state holding two
parallel ways between `(0,0)` and `(MIN_INT, MIN_INT)` — a legal
coordinate equal to the sentinel `NO_COORD` — a cycle in the claim's
sense exists from `(0,0)` (out along `W1`, back along `W2`, no
immediate retrace, `(0,0)` revisited) and `(0,0)` has incident ways,
yet `route_with_cycle((0,0))` returns the empty sequence: the search
passes `NO_COORD` as the "previous coordinate" sentinel for the
initial call, so the real neighbour `(MIN_INT, MIN_INT)` is skipped as
if it were the predecessor. -/
theorem claim_C3_cycle_missed :
    Reachable exampleSentinelAlias ∧
    CycleFrom exampleSentinelAlias ⟨0, 0⟩ ∧
    waysFrom exampleSentinelAlias ⟨0, 0⟩ ≠ [] ∧
    routeWithCycleList exampleSentinelAlias ⟨0, 0⟩ = [] :=
  ⟨reachable_exampleSentinelAlias,
   ⟨[("W1", NO_COORD), ("W2", ⟨0, 0⟩)], by decide, by decide, by decide, by decide⟩,
   by decide, by decide⟩

/-- Claim C4: in every reachable state a coordinate has a crossroad
entry exactly when it is an endpoint of some stored way, and the two
route queries preserve both way views and the exact crossroad key
list (they never create or destroy entries). -/
theorem claim_C4_crossroad_lifecycle (s : DS) (h : Reachable s) :
    (∀ c : Coord, (∃ cd, lookupCd s c = some cd) ↔
       ∃ p ∈ s.waysById, c = p.2.end1 ∨ c = p.2.end2) ∧
    (∀ a b r, routeAny s a b = .ok r →
       r.2.waysById = s.waysById ∧ r.2.waysByCoord = s.waysByCoord ∧ cdKeys r.2 = cdKeys s) ∧
    (∀ a r, routeWithCycle s a = .ok r →
       r.2.waysById = s.waysById ∧ r.2.waysByCoord = s.waysByCoord ∧ cdKeys r.2 = cdKeys s) := by
  have hinv := dsinv_of_reachable h
  refine ⟨?_, ?_, ?_⟩
  · intro c
    constructor
    · rintro ⟨cd, hcd⟩
      exact hinv.tight c (lookupCd_keys_of_some hcd)
    · rintro ⟨p, hp, hcase⟩
      have hq : (c, p.2) ∈ s.waysByCoord := by
        refine hinv.perm.mem_iff.2 (mem_incidencesOf.2 ⟨p, hp, ?_⟩)
        rcases hcase with h1 | h1
        · exact Or.inl (by rw [h1])
        · exact Or.inr (by rw [h1])
      obtain ⟨cd, hcd⟩ := lookupCd_mem_keys (hinv.cover _ hq)
      exact ⟨cd, hcd⟩
  · intro a b r hok
    obtain ⟨l, s', hok', h1, h2, h3⟩ :=
      routeAnyAux_total s a b (s.visitedCoordinates.length + 1) hinv (by omega)
    unfold routeAny at hok
    rw [hok'] at hok
    cases hok
    exact ⟨h1, h2, h3⟩
  · intro a r hok
    obtain ⟨l, s', hok', h1, h2, h3⟩ :=
      routeWithCycleAux_total s a (s.visitedCoordinates.length + 1) hinv (by omega)
    unfold routeWithCycle at hok
    rw [hok'] at hok
    cases hok
    exact ⟨h1, h2, h3⟩

/-- Claim C4, witness: the crossroad-entry characterisation evaluated
at `(0,0)` in the two-way example state. -/
theorem claim_C4_witness :
    (∃ cd, lookupCd exampleTwoWays ⟨0, 0⟩ = some cd) ↔
      ∃ p ∈ exampleTwoWays.waysById, (⟨0, 0⟩ : Coord) = p.2.end1 ∨ (⟨0, 0⟩ : Coord) = p.2.end2 :=
  (claim_C4_crossroad_lifecycle exampleTwoWays reachable_exampleTwoWays).1 ⟨0, 0⟩

/-- Claim C5: a failed mutation is atomic — `add_way` with a present
id and `remove_way` with an absent id both return `false` and return
the state entirely unchanged. -/
theorem claim_C5_failed_mutation_atomic (s : DS) (id id₂ : WayID) (coords : List Coord) :
    ((lookupWayById s id).isSome → addWay s id coords = (false, s)) ∧
    (lookupWayById s id₂ = none → removeWay s id₂ = (false, s)) := by
  constructor
  · intro h
    cases hl : lookupWayById s id with
    | none => rw [hl] at h; simp at h
    | some w => unfold addWay; rw [hl]
  · intro h
    unfold removeWay
    rw [h]

/-- Claim C5, witness: re-adding `W1` and removing the unknown id
`XX` in the two-way example both fail without mutation. -/
theorem claim_C5_witness :
    addWay exampleTwoWays "W1" [⟨5, 5⟩] = (false, exampleTwoWays) ∧
    removeWay exampleTwoWays "XX" = (false, exampleTwoWays) :=
  ⟨(claim_C5_failed_mutation_atomic exampleTwoWays "W1" "XX" [⟨5, 5⟩]).1 (by decide),
   (claim_C5_failed_mutation_atomic exampleTwoWays "W1" "XX" [⟨5, 5⟩]).2 (by decide)⟩

/-- Claim C6: `route_any` returns the one-element sentinel sequence
`[(NO_COORD, NO_WAY, NO_DISTANCE)]`, without touching the state, when
either endpoint has no incident way; and when both endpoints have
incident ways but no walk connects them it returns the empty
sequence, distinct from the sentinel. -/
theorem claim_C6_sentinel_vs_empty (s : DS) (a b : Coord) (h : Reachable s) :
    ((waysFrom s b = [] ∨ waysFrom s a = []) →
      routeAny s a b = .ok ([(NO_COORD, NO_WAY, NO_DISTANCE)], s)) ∧
    (waysFrom s b ≠ [] → waysFrom s a ≠ [] → ¬ Walk s.waysById a b →
      ∃ s', routeAny s a b = .ok ([], s')) := by
  refine ⟨routeAny_sentinel s a b, ?_⟩
  intro hb ha hnw
  obtain ⟨l, s', hok, hdisj⟩ := routeAny_search_result s a b (dsinv_of_reachable h) hb ha
  rcases hdisj with rfl | hchain
  · exact ⟨s', hok⟩
  · exact absurd hchain.walk hnw

/-- Claim C6, witness: in the disconnected example, a query from the
isolated coordinate `(9,9)` yields the sentinel, and the query from
`(0,0)` to the unreachable `(10,10)` yields the empty sequence. -/
theorem claim_C6_witness :
    routeAny exampleDisconnected ⟨9, 9⟩ ⟨10, 10⟩ =
      .ok ([(NO_COORD, NO_WAY, NO_DISTANCE)], exampleDisconnected) ∧
    (∃ s', routeAny exampleDisconnected ⟨0, 0⟩ ⟨10, 10⟩ = .ok ([], s')) :=
  ⟨(claim_C6_sentinel_vs_empty exampleDisconnected ⟨9, 9⟩ ⟨10, 10⟩
      reachable_exampleDisconnected).1 (Or.inr (by decide)),
   (claim_C6_sentinel_vs_empty exampleDisconnected ⟨0, 0⟩ ⟨10, 10⟩
      reachable_exampleDisconnected).2 (by decide) (by decide) no_walk_exampleDisconnected⟩

/-- Claim C7: for every coordinate with at least one incident way,
`route_any(x, x)` returns exactly the one-element sequence
`[(x, NO_WAY, 0)]`. -/
theorem claim_C7_route_self (s : DS) (x : Coord) (h : Reachable s)
    (hx : waysFrom s x ≠ []) :
    ∃ s', routeAny s x x = .ok ([(x, NO_WAY, 0)], s') :=
  routeAny_self s x (dsinv_of_reachable h) hx

/-- Claim C7, witness: the self-query at `(0,0)` in the two-way
example. -/
theorem claim_C7_witness :
    ∃ s', routeAny exampleTwoWays ⟨0, 0⟩ ⟨0, 0⟩ = .ok ([(⟨0, 0⟩, NO_WAY, 0)], s') :=
  claim_C7_route_self exampleTwoWays ⟨0, 0⟩ reachable_exampleTwoWays (by decide)

/-- Claim C8: the per-segment length is the floor of the real
Euclidean distance (the floor taken per segment); a way built by the
constructor stores the sum of those per-segment floors over
consecutive coordinate pairs; and in every reachable state every
stored way still carries exactly that sum — the length is computed at
creation and never mutated. -/
theorem claim_C8_way_length (s : DS) (h : Reachable s) :
    (∀ c1 c2 : Coord, segLen c1 c2 =
       ⌊Real.sqrt ((((c1.x - c2.x) ^ 2 + (c1.y - c2.y) ^ 2 : Int) : ℝ))⌋) ∧
    (∀ id coords, (mkWay id coords).length =
       ((coords.zip coords.tail).map (fun pq => segLen pq.1 pq.2)).sum) ∧
    ∀ p ∈ s.waysById,
      p.2.length =
        ((p.2.coordinates.zip p.2.coordinates.tail).map (fun pq => segLen pq.1 pq.2)).sum := by
  refine ⟨segLen_eq_floor, fun id coords => calcLength_eq_zip coords, ?_⟩
  intro p hp
  rw [wayLengths_of_reachable h p hp, calcLength_eq_zip]

/-- Claim C8, witness: the stored `W1` of the two-way example carries
the per-segment sum for its coordinate list. -/
theorem claim_C8_witness :
    ("W1", mkWay "W1" [⟨0, 0⟩, ⟨0, 3⟩]) ∈ exampleTwoWays.waysById ∧
    (mkWay "W1" [⟨0, 0⟩, ⟨0, 3⟩]).length =
      (((mkWay "W1" [⟨0, 0⟩, ⟨0, 3⟩]).coordinates.zip
          (mkWay "W1" [⟨0, 0⟩, ⟨0, 3⟩]).coordinates.tail).map
        (fun pq => segLen pq.1 pq.2)).sum :=
  ⟨by decide,
   (claim_C8_way_length exampleTwoWays reachable_exampleTwoWays).2.2
     ("W1", mkWay "W1" [⟨0, 0⟩, ⟨0, 3⟩]) (by decide)⟩

/-- Claim C9, counterexample to the stated bound: the reachable
self-loop state has exactly one distinct coordinate, yet
`route_with_cycle` limited to recursion depth 1 exhausts its budget —
the cycle search needs depth `#coordinates + 1` because the found
check happens on re-entry. -/
theorem claim_C9_counterexample :
    Reachable exampleSelfLoop ∧ exampleSelfLoop.visitedCoordinates.length = 1 ∧
    isOutOfFuel
      (routeWithCycleAux exampleSelfLoop.visitedCoordinates.length exampleSelfLoop ⟨1, 1⟩) =
      true :=
  ⟨reachable_exampleSelfLoop, by decide, by decide⟩

/-- Claim C9, amended: both traversals terminate on every reachable
state; `search_any` needs recursion depth at most the number of
crossroad entries, `search_cycle` at most that number plus one. -/
theorem claim_C9_amended (s : DS) (a b : Coord) (h : Reachable s) :
    (∃ r, routeAnyAux s.visitedCoordinates.length s a b = .ok r) ∧
    (∃ r, routeWithCycleAux (s.visitedCoordinates.length + 1) s a = .ok r) := by
  have hinv := dsinv_of_reachable h
  obtain ⟨l, s', hok, _, _, _⟩ :=
    routeAnyAux_total s a b s.visitedCoordinates.length hinv (le_refl _)
  obtain ⟨l₂, s₂, hok₂, _, _, _⟩ :=
    routeWithCycleAux_total s a (s.visitedCoordinates.length + 1) hinv (by omega)
  exact ⟨⟨(l, s'), hok⟩, ⟨(l₂, s₂), hok₂⟩⟩

/-- Claim C9, witness: the depth bounds evaluated on the two-way
example. -/
theorem claim_C9_witness :
    (∃ r, routeAnyAux exampleTwoWays.visitedCoordinates.length exampleTwoWays
        ⟨0, 0⟩ ⟨4, 3⟩ = .ok r) ∧
    (∃ r, routeWithCycleAux (exampleTwoWays.visitedCoordinates.length + 1) exampleTwoWays
        ⟨0, 0⟩ = .ok r) :=
  claim_C9_amended exampleTwoWays ⟨0, 0⟩ ⟨4, 3⟩ reachable_exampleTwoWays

/-- Claim C10: on every reachable state both route queries are total —
with the modelled recursion budget they return `.ok`, so in
particular no crossroad-table `at` lookup ever fails during
`search_any` or `search_cycle`. -/
theorem claim_C10_total (s : DS) (h : Reachable s) (a b : Coord) :
    (∃ r, routeAny s a b = .ok r) ∧ (∃ r, routeWithCycle s a = .ok r) := by
  have hinv := dsinv_of_reachable h
  obtain ⟨l, s', hok, _, _, _⟩ :=
    routeAnyAux_total s a b (s.visitedCoordinates.length + 1) hinv (by omega)
  obtain ⟨l₂, s₂, hok₂, _, _, _⟩ :=
    routeWithCycleAux_total s a (s.visitedCoordinates.length + 1) hinv (by omega)
  exact ⟨⟨(l, s'), hok⟩, ⟨(l₂, s₂), hok₂⟩⟩

/-- Claim C10, witness: both queries complete on the two-way
example. -/
theorem claim_C10_witness :
    (∃ r, routeAny exampleTwoWays ⟨0, 0⟩ ⟨4, 3⟩ = .ok r) ∧
    (∃ r, routeWithCycle exampleTwoWays ⟨0, 0⟩ = .ok r) :=
  claim_C10_total exampleTwoWays reachable_exampleTwoWays ⟨0, 0⟩ ⟨4, 3⟩
